import Mathlib

/-!
Verification of the Lynx lexer (src/lexer.rs) against its specification.

The Rust lexer is shallowly embedded: `LineLexer`'s mutable state
(a peekable character iterator plus the 1-based line/column counters)
becomes explicit `(List Char, Nat)` state threaded through pure
functions, one Lean function per Rust method, and fallible methods
return `Except Error`. `advance` in Rust unconditionally increments
`col_no` and pops the iterator (a no-op pop when it is exhausted), so
the embedding models an advance as "tail of the list, column + 1".
-/

namespace Lynx

/-- Position of a character in Lynx source code: 1-based line and column
(source: Pos in token.rs as used by lexer.rs). -/
structure Pos where
  line : Nat
  col : Nat
deriving DecidableEq, Repr

/-- Position of a span of text: starting position and inclusive end
(source: Span). -/
structure Span where
  start : Pos
  stop : Pos
deriving DecidableEq, Repr

/-- Kinds of tokens the lexer produces (source: TokenKind as used by
lexer.rs). Float values are carried exactly as rationals; Rust stores the
nearest f64 instead, which agrees on every value this development
evaluates. -/
inductive TokenKind where
  | Name (s : String)
  | IntLit (n : Int)
  | FloatLit (q : Rat)
  | CharLit (c : Char)
  | StrLit (s : String)
  | UnitLit
  | Lp
  | Rp
  | Lb
  | Rb
  | Lc
  | Rc
  | Semicolon
deriving DecidableEq, Repr

/-- Token: kind plus span (source: Token). -/
structure Token where
  kind : TokenKind
  span : Span
deriving DecidableEq, Repr

/-- Kinds of lexing errors (source: ErrorKind as used by lexer.rs). -/
inductive ErrorKind where
  | EmptyCharLit
  | InvalidNumLitFormat
  | MultipleCharsInCharLit
  | UnexpectedChar
  | UnknownEscapeSeq
  | UnterminatedCharOrStrLit
deriving DecidableEq, Repr

/-- Lexing error: kind plus the span of the offending text
(source: Error). -/
structure Error where
  kind : ErrorKind
  span : Span
deriving DecidableEq, Repr

deriving instance DecidableEq for Except

/-- Characters allowed in symbolic names (source: SYM_CHARS). -/
def SYM_CHARS : String := "~`!@#$%^&*-+=|\\:'<,>.?/"

/-- Membership in SYM_CHARS, i.e. `SYM_CHARS.contains(c)` in the source;
stated over the underlying character list. -/
def symChar (c : Char) : Bool :=
  SYM_CHARS.data.contains c

/-- Models Rust char::is_whitespace exactly: the finite Unicode
White_Space set. -/
def rustIsWhitespace (c : Char) : Bool :=
  (9 ≤ c.toNat && c.toNat ≤ 13) || c.toNat = 32 || c.toNat = 0x85 ||
  c.toNat = 0xa0 || c.toNat = 0x1680 ||
  (0x2000 ≤ c.toNat && c.toNat ≤ 0x200a) ||
  c.toNat = 0x2028 || c.toNat = 0x2029 || c.toNat = 0x202f ||
  c.toNat = 0x205f || c.toNat = 0x3000

/-- Models Rust char::is_alphabetic, restricted to ASCII letters: the full
Unicode Alphabetic table is outside this embedding, and every input this
development evaluates is ASCII. -/
def isAlphabeticM (c : Char) : Bool :=
  c.isAlpha

/-- Models Rust char::is_alphanumeric, restricted to ASCII letters and
digits (same caveat as isAlphabeticM). -/
def isAlphanumericM (c : Char) : Bool :=
  c.isAlphanum

/-- Checks if a character is an ASCII hex digit
(Rust char::is_ascii_hexdigit). -/
def isAsciiHexDigit (c : Char) : Bool :=
  c.isDigit || ('a' ≤ c && c ≤ 'f') || ('A' ≤ c && c ≤ 'F')

/-- Value of an ASCII digit or hex digit (Rust char::to_digit on the
characters the lexer feeds it). -/
def digitToNat (c : Char) : Nat :=
  if c.toNat ≤ 57 then c.toNat - 48
  else if c.toNat ≤ 70 then c.toNat - 55
  else c.toNat - 87

/-- Value of a digit string in the given base, most significant digit
first. -/
def natOfDigits (base : Nat) (ds : List Char) : Nat :=
  ds.foldl (fun a c => a * base + digitToNat c) 0

/-- Models Rust i64::from_str_radix on the strings the lexer builds
(nonempty runs of digits valid for the base, no sign): fails on an empty
string and on overflow above i64::MAX, otherwise the value in the base. -/
def i64FromStrRadix (ds : List Char) (base : Nat) : Option Int :=
  if ds = [] then none
  else if natOfDigits base ds ≤ 2 ^ 63 - 1 then some (natOfDigits base ds)
  else none

/-- Models Rust u32::from_str_radix base 16 on the hex strings the lexer
builds: fails on an empty string and on overflow above u32::MAX. -/
def u32FromStrRadix (ds : List Char) : Option Nat :=
  if ds = [] then none
  else if natOfDigits 16 ds ≤ 2 ^ 32 - 1 then some (natOfDigits 16 ds)
  else none

/-- Models Rust char::from_u32: some exactly when the code point is a
valid Unicode scalar value. -/
def charFromU32 (n : Nat) : Option Char :=
  if n.isValidChar then some (Char.ofNat n) else none

/-- Models Rust str::parse::<f64> on the numeric strings the lexer builds
(a digit run with at most one decimal point): the integer and fractional
digit runs around the point, with at least one digit overall. The value is
represented exactly as a rational; Rust rounds it to the nearest f64. -/
def parseFloatModel (ds : List Char) : Option Rat :=
  let ip := ds.takeWhile (fun c => c ≠ '.')
  match ds.dropWhile (fun c => c ≠ '.') with
  | [] =>
    if ds ≠ [] && ds.all Char.isDigit then some (natOfDigits 10 ds) else none
  | _ :: fp =>
    if (ip ≠ [] || fp ≠ []) && ip.all Char.isDigit && fp.all Char.isDigit then
      some (mkRat (natOfDigits 10 (ip ++ fp)) (10 ^ fp.length))
    else none

/-- Checks if a character is a valid digit under the given base, which is
among 2, 8, 10 or 16 (source: LineLexer::is_valid_digit). -/
def isValidDigit (c : Char) (base : Nat) : Bool :=
  match base with
  | 2 => c = '0' || c = '1'
  | 8 => c.isDigit && c < '8'
  | 10 => c.isDigit
  | 16 => isAsciiHexDigit c
  | _ => false

/-- Skips whitespace (source: LineLexer::skip_ws): state is the remaining
characters and the column of the last consumed character. -/
def skipWs (rem : List Char) (col : Nat) : List Char × Nat :=
  match rem with
  | [] => ([], col)
  | c :: rest =>
    if rustIsWhitespace c then skipWs rest (col + 1) else (c :: rest, col)

/-- Skips the rest of the line (source: LineLexer::skip_line). -/
def skipLine (rem : List Char) (col : Nat) : List Char × Nat :=
  match rem with
  | [] => ([], col)
  | _ :: rest => skipLine rest (col + 1)

/-- The hex-digit accumulation loop of the unicode escape in
LineLexer::handle_esc_seq: consumes hex digits until the closing brace;
any other character is consumed and reported as an unknown escape, and
end of line is an unterminated literal at the literal's opening
position. -/
def hexLoop (line : Nat) (escStart litStart : Pos) (rem : List Char)
    (col : Nat) (acc : List Char) :
    Except Error (List Char × List Char × Nat) :=
  match rem with
  | [] => .error ⟨.UnterminatedCharOrStrLit, ⟨litStart, ⟨line, col⟩⟩⟩
  | c :: rest =>
    if c = '\x7d' then .ok (acc, rest, col + 1)
    else if isAsciiHexDigit c then
      hexLoop line escStart litStart rest (col + 1) (acc ++ [c])
    else .error ⟨.UnknownEscapeSeq, ⟨escStart, ⟨line, col + 1⟩⟩⟩

/-- Handles an escape sequence in a character or string literal
(source: LineLexer::handle_esc_seq), invoked when the lookahead — the
head of rem — is a backslash. Faithfully keeps the source's conflation of
"next character is not an opening brace" with "line ends right after
backslash-u": both take the advance-and-report-unknown-escape branch,
the advance bumping the column even at end of line. -/
def handleEscSeq (line : Nat) (litStart : Pos) (rem : List Char)
    (col : Nat) : Except Error (Char × List Char × Nat) :=
  let rem₁ := rem.tail
  let col₁ := col + 1
  let escStart : Pos := ⟨line, col₁⟩
  match rem₁ with
  | [] => .error ⟨.UnterminatedCharOrStrLit, ⟨litStart, ⟨line, col₁⟩⟩⟩
  | c :: rem₂ =>
    if c = 'n' then .ok ('\n', rem₂, col₁ + 1)
    else if c = 'r' then .ok ('\r', rem₂, col₁ + 1)
    else if c = 't' then .ok ('\t', rem₂, col₁ + 1)
    else if c = '\\' then .ok ('\\', rem₂, col₁ + 1)
    else if c = '0' then .ok ('\x00', rem₂, col₁ + 1)
    else if c = '\'' then .ok ('\'', rem₂, col₁ + 1)
    else if c = '"' then .ok ('"', rem₂, col₁ + 1)
    else if c = 'u' then
      match rem₂ with
      | '\x7b' :: rem₃ =>
        match hexLoop line escStart litStart rem₃ (col₁ + 2) [] with
        | .error e => .error e
        | .ok (hexStr, rem₄, col₄) =>
          match u32FromStrRadix hexStr with
          | none => .error ⟨.UnknownEscapeSeq, ⟨escStart, ⟨line, col₄⟩⟩⟩
          | some n =>
            match charFromU32 n with
            | none => .error ⟨.UnknownEscapeSeq, ⟨escStart, ⟨line, col₄⟩⟩⟩
            | some ch => .ok (ch, rem₄, col₄)
      | _ =>
        .error ⟨.UnknownEscapeSeq, ⟨escStart, ⟨line, col₁ + 2⟩⟩⟩
    else .error ⟨.UnknownEscapeSeq, ⟨escStart, ⟨line, col₁ + 1⟩⟩⟩

theorem hexLoop_rem_length {line : Nat} {escStart litStart : Pos}
    {rem : List Char} {col : Nat} {acc hexStr rem' : List Char} {col' : Nat}
    (h : hexLoop line escStart litStart rem col acc = .ok (hexStr, rem', col')) :
    rem'.length < rem.length := by
  induction rem generalizing col acc with
  | nil => simp [hexLoop] at h
  | cons c rest ih =>
    simp only [hexLoop] at h
    split at h
    · injection h with h1
      injection h1 with h1a h2
      injection h2 with h2a h2b
      subst h2a
      simp
    · split at h
      · exact Nat.lt_trans (ih h) (by simp)
      · injection h

theorem handleEscSeq_rem_length {line : Nat} {litStart : Pos}
    {rem : List Char} {col : Nat} {ch : Char} {rem' : List Char} {col' : Nat}
    (h : handleEscSeq line litStart rem col = .ok (ch, rem', col')) :
    rem'.length < rem.length := by
  match rem with
  | [] => simp [handleEscSeq] at h
  | b :: rem₁ =>
    simp only [handleEscSeq, List.tail_cons] at h
    split at h
    · injection h
    · rename_i c rem₂
      simp only [List.length_cons]
      split_ifs at h
      all_goals try (injection h with h1)
      all_goals try (injection h1 with h1a h2)
      all_goals try (injection h2 with h2a h2b)
      all_goals try (subst h2a; omega)
      -- remaining: the unicode branch
      split at h
      · split at h
        · injection h
        · rename_i hexStr rem₄ col₄ hh
          split at h
          · injection h
          · split at h
            · injection h
            · injection h with h1
              injection h1 with h1a h2
              injection h2 with h2a h2b
              subst h2a
              have hlen := hexLoop_rem_length hh
              simp only [List.length_cons] at hlen ⊢
              omega
      · injection h

/-- The accumulation loop of LineLexer::lex_char_lit: collects decoded
characters until the closing quote, validating the count on close. -/
def charLitLoop (line : Nat) (startPos : Pos) (rem : List Char) (col : Nat)
    (acc : List Char) : Except Error (Token × List Char × Nat) :=
  match rem with
  | [] => .error ⟨.UnterminatedCharOrStrLit, ⟨startPos, ⟨line, col⟩⟩⟩
  | c :: rest =>
    if c = '\'' then
      match acc with
      | [] => .error ⟨.EmptyCharLit, ⟨startPos, ⟨line, col + 1⟩⟩⟩
      | [ch] => .ok (⟨.CharLit ch, ⟨startPos, ⟨line, col + 1⟩⟩⟩, rest, col + 1)
      | _ => .error ⟨.MultipleCharsInCharLit, ⟨startPos, ⟨line, col + 1⟩⟩⟩
    else if c = '\\' then
      match h : handleEscSeq line startPos (c :: rest) col with
      | .error e => .error e
      | .ok (ch, rem', col') => charLitLoop line startPos rem' col' (acc ++ [ch])
    else charLitLoop line startPos rest (col + 1) (acc ++ [c])
termination_by rem.length
decreasing_by
  · exact handleEscSeq_rem_length h
  · simp

/-- Lexes character literals (source: LineLexer::lex_char_lit), invoked
when the lookahead — the head of rem — is a single quote. -/
def lexCharLit (line : Nat) (rem : List Char) (col : Nat) :
    Except Error (Token × List Char × Nat) :=
  charLitLoop line ⟨line, col + 1⟩ rem.tail (col + 1) []

/-- The accumulation loop of LineLexer::lex_quoted_str_lit: collects
decoded characters until the closing double quote. -/
def strLitLoop (line : Nat) (startPos : Pos) (rem : List Char) (col : Nat)
    (acc : String) : Except Error (Token × List Char × Nat) :=
  match rem with
  | [] => .error ⟨.UnterminatedCharOrStrLit, ⟨startPos, ⟨line, col⟩⟩⟩
  | c :: rest =>
    if c = '"' then
      .ok (⟨.StrLit acc, ⟨startPos, ⟨line, col + 1⟩⟩⟩, rest, col + 1)
    else if c = '\\' then
      match h : handleEscSeq line startPos (c :: rest) col with
      | .error e => .error e
      | .ok (ch, rem', col') => strLitLoop line startPos rem' col' (acc.push ch)
    else strLitLoop line startPos rest (col + 1) (acc.push c)
termination_by rem.length
decreasing_by
  · exact handleEscSeq_rem_length h
  · simp

/-- Lexes quoted string literals (source: LineLexer::lex_quoted_str_lit),
invoked when the lookahead is a double quote. -/
def lexQuotedStrLit (line : Nat) (rem : List Char) (col : Nat) :
    Except Error (Token × List Char × Nat) :=
  strLitLoop line ⟨line, col + 1⟩ rem.tail (col + 1) ""

/-- The verbatim accumulation loop of LineLexer::lex_raw_string_lit:
consumes the rest of the line. -/
def rawLoop (rem : List Char) (col : Nat) (acc : String) : String × Nat :=
  match rem with
  | [] => (acc, col)
  | c :: rest => rawLoop rest (col + 1) (acc.push c)

/-- Lexes raw string literals (source: LineLexer::lex_raw_string_lit),
invoked when the lookahead is a backslash followed by a second
backslash. -/
def lexRawStringLit (line : Nat) (rem : List Char) (col : Nat) :
    Token × List Char × Nat :=
  let col₁ := col + 1
  let startPos : Pos := ⟨line, col₁⟩
  match rawLoop rem.tail.tail (col₁ + 1) "" with
  | (s, col₂) => (⟨.StrLit s, ⟨startPos, ⟨line, col₂⟩⟩⟩, [], col₂)

/-- The while loop of LineLexer::lex_num_lit: consumes underscores, at
most one decimal point in base 10 (a second point is consumed and ends
the scan), and digits valid for the base; any other character ends the
scan unconsumed. Returns the accumulated digit string, the float flag,
the remaining characters and the column of the last consumed
character. -/
def numLoop (base : Nat) (rem : List Char) (col : Nat) (acc : List Char)
    (isFloat : Bool) : List Char × Bool × List Char × Nat :=
  match rem with
  | [] => (acc, isFloat, [], col)
  | c :: rest =>
    if c = '_' then numLoop base rest (col + 1) acc isFloat
    else if c = '.' && base = 10 then
      if isFloat then (acc, true, rest, col + 1)
      else numLoop base rest (col + 1) (acc ++ ['.']) true
    else if isValidDigit c base then
      numLoop base rest (col + 1) (acc ++ [c]) isFloat
    else (acc, isFloat, c :: rest, col)

/-- The base-prefix check at the start of LineLexer::lex_num_lit: given
the lookahead (already consumed at column col₁) and the characters after
it, returns the base, the initial digit accumulator, the remaining
characters and the column of the last consumed character. -/
def numPfx (lookahead : Char) (rem₀ : List Char) (col₁ : Nat) :
    Nat × List Char × List Char × Nat :=
  if lookahead = '0' then
    match rem₀ with
    | c :: rest₁ =>
      if c = 'x' || c = 'X' then (16, [], rest₁, col₁ + 1)
      else if c = 'b' || c = 'B' then (2, [], rest₁, col₁ + 1)
      else if c = 'o' || c = 'O' then (8, [], rest₁, col₁ + 1)
      else (10, [lookahead], rem₀, col₁)
    | [] => (10, [lookahead], rem₀, col₁)
  else (10, [lookahead], rem₀, col₁)

/-- Lexes number literals (source: LineLexer::lex_num_lit), invoked when
the lookahead is an ASCII digit; rem still starts with the lookahead. -/
def lexNumLit (line : Nat) (lookahead : Char) (rem : List Char) (col : Nat) :
    Except Error (Token × List Char × Nat) :=
  let col₁ := col + 1
  let startPos : Pos := ⟨line, col₁⟩
  let pfx := numPfx lookahead rem.tail col₁
  let base := pfx.1
  let run := numLoop base pfx.2.2.1 pfx.2.2.2 pfx.2.1 false
  let numStr := run.1
  let isFloat := run.2.1
  let rem₂ := run.2.2.1
  let col₃ := run.2.2.2
  if isFloat then
    match parseFloatModel numStr with
    | some q => .ok (⟨.FloatLit q, ⟨startPos, ⟨line, col₃⟩⟩⟩, rem₂, col₃)
    | none => .error ⟨.InvalidNumLitFormat, ⟨startPos, ⟨line, col₃⟩⟩⟩
  else
    match i64FromStrRadix numStr base with
    | some n => .ok (⟨.IntLit n, ⟨startPos, ⟨line, col₃⟩⟩⟩, rem₂, col₃)
    | none => .error ⟨.InvalidNumLitFormat, ⟨startPos, ⟨line, col₃⟩⟩⟩

/-- The continuation loop of LineLexer::lex_alpha: consumes alphanumeric
characters, underscores, apostrophes and exclamation marks. -/
def alphaLoop (rem : List Char) (col : Nat) (acc : String) :
    String × List Char × Nat :=
  match rem with
  | [] => (acc, [], col)
  | c :: rest =>
    if isAlphanumericM c || c = '_' || c = '\'' || c = '!' then
      alphaLoop rest (col + 1) (acc.push c)
    else (acc, c :: rest, col)

/-- Lexes alphabetic names (source: LineLexer::lex_alpha), invoked when
the lookahead is alphabetic or an underscore; rem still starts with the
lookahead. -/
def lexAlpha (line : Nat) (lookahead : Char) (rem : List Char) (col : Nat) :
    Token × List Char × Nat :=
  let col₁ := col + 1
  let startPos : Pos := ⟨line, col₁⟩
  match alphaLoop rem.tail col₁ (String.singleton lookahead) with
  | (name, rem₁, col₂) => (⟨.Name name, ⟨startPos, ⟨line, col₂⟩⟩⟩, rem₁, col₂)

/-- The continuation loop of LineLexer::lex_sym: consumes characters of
SYM_CHARS. -/
def symLoop (rem : List Char) (col : Nat) (acc : String) :
    String × List Char × Nat :=
  match rem with
  | [] => (acc, [], col)
  | c :: rest =>
    if symChar c then symLoop rest (col + 1) (acc.push c)
    else (acc, c :: rest, col)

/-- Lexes symbolic names (source: LineLexer::lex_sym), invoked when the
lookahead is among SYM_CHARS; rem still starts with the lookahead. -/
def lexSym (line : Nat) (lookahead : Char) (rem : List Char) (col : Nat) :
    Token × List Char × Nat :=
  let col₁ := col + 1
  let startPos : Pos := ⟨line, col₁⟩
  match symLoop rem.tail col₁ (String.singleton lookahead) with
  | (name, rem₁, col₂) => (⟨.Name name, ⟨startPos, ⟨line, col₂⟩⟩⟩, rem₁, col₂)

/-- Handles lookahead left parenthesis (source: LineLexer::lex_lp): a
following right parenthesis fuses into the unit literal. -/
def lexLp (line : Nat) (rem : List Char) (col : Nat) :
    Token × List Char × Nat :=
  let rem₁ := rem.tail
  let col₁ := col + 1
  match rem₁ with
  | ')' :: rest =>
    (⟨.UnitLit, ⟨⟨line, col₁⟩, ⟨line, col₁ + 1⟩⟩⟩, rest, col₁ + 1)
  | _ => (⟨.Lp, ⟨⟨line, col₁⟩, ⟨line, col₁⟩⟩⟩, rem₁, col₁)

/-- Handles the single-character punctuation lookaheads (source:
LineLexer::lex_rp, lex_lb, lex_rb, lex_lc, lex_rc and lex_semicolon,
which differ only in the token kind they emit). -/
def lexPunct (kind : TokenKind) (line : Nat) (rem : List Char) (col : Nat) :
    Token × List Char × Nat :=
  (⟨kind, ⟨⟨line, col + 1⟩, ⟨line, col + 1⟩⟩⟩, rem.tail, col + 1)

/-- Handles lookahead hyphen (source: LineLexer::lex_hyphen): a second
hyphen starts a line comment (none, after which the dispatch loop
breaks); otherwise the hyphen starts a symbolic name. -/
def lexHyphen (line : Nat) (rem : List Char) (col : Nat) :
    Option (Token × List Char × Nat) :=
  match rem.tail.head? with
  | some '-' => none
  | _ => some (lexSym line '-' rem col)

/-- Handles lookahead backslash (source: LineLexer::lex_backslash): a
second backslash starts a raw string literal; otherwise the backslash
starts a symbolic name. -/
def lexBackslash (line : Nat) (rem : List Char) (col : Nat) :
    Token × List Char × Nat :=
  match rem.tail.head? with
  | some '\\' => lexRawStringLit line rem col
  | _ => lexSym line '\\' rem col

/-- Wraps an infallible lexing step for the dispatch loop. -/
def pureTok (r : Token × List Char × Nat) :
    Except Error (Option Token × List Char × Nat) :=
  .ok (some r.1, r.2.1, r.2.2)

/-- Wraps a fallible lexing step for the dispatch loop (the `?` operator
in the source). -/
def tokOk (r : Except Error (Token × List Char × Nat)) :
    Except Error (Option Token × List Char × Nat) :=
  match r with
  | .error e => .error e
  | .ok (t, rem, col) => .ok (some t, rem, col)

/-- The dispatch classes of the match in LineLexer::tokenize, one per
match arm. -/
inductive LookaheadClass where
  | lp
  | rp
  | lb
  | rb
  | lc
  | rc
  | semi
  | hyphen
  | backslash
  | quote
  | doubleQuote
  | digit
  | alpha
  | sym
  | other
deriving DecidableEq, Repr

/-- Classifies the lookahead character exactly as the match in
LineLexer::tokenize does, arms in source order (literal characters first,
then the guard arms for ASCII digits, alphabetic-or-underscore and
SYM_CHARS, then the catch-all). -/
def classify (c : Char) : LookaheadClass :=
  if c = '(' then .lp
  else if c = ')' then .rp
  else if c = '[' then .lb
  else if c = ']' then .rb
  else if c = '\x7b' then .lc
  else if c = '\x7d' then .rc
  else if c = ';' then .semi
  else if c = '-' then .hyphen
  else if c = '\\' then .backslash
  else if c = '\'' then .quote
  else if c = '"' then .doubleQuote
  else if c.isDigit then .digit
  else if isAlphabeticM c || c = '_' then .alpha
  else if symChar c then .sym
  else .other

/-- The lookahead dispatch of LineLexer::tokenize; c is the head of rem.
The comment arm returns none (the loop then breaks); an unrecognized
character is consumed and reported as an unexpected-character error. -/
def dispatch (line : Nat) (c : Char) (rem : List Char) (col : Nat) :
    Except Error (Option Token × List Char × Nat) :=
  match classify c with
  | .lp => pureTok (lexLp line rem col)
  | .rp => pureTok (lexPunct .Rp line rem col)
  | .lb => pureTok (lexPunct .Lb line rem col)
  | .rb => pureTok (lexPunct .Rb line rem col)
  | .lc => pureTok (lexPunct .Lc line rem col)
  | .rc => pureTok (lexPunct .Rc line rem col)
  | .semi => pureTok (lexPunct .Semicolon line rem col)
  | .hyphen =>
    match lexHyphen line rem col with
    | some r => pureTok r
    | none =>
      match skipLine rem col with
      | (rem₁, col₁) => .ok (none, rem₁, col₁)
  | .backslash => pureTok (lexBackslash line rem col)
  | .quote => tokOk (lexCharLit line rem col)
  | .doubleQuote => tokOk (lexQuotedStrLit line rem col)
  | .digit => tokOk (lexNumLit line c rem col)
  | .alpha => pureTok (lexAlpha line c rem col)
  | .sym => pureTok (lexSym line c rem col)
  | .other => .error ⟨.UnexpectedChar, ⟨⟨line, col + 1⟩, ⟨line, col + 1⟩⟩⟩

theorem skipWs_fst_length {rem : List Char} {col : Nat} :
    (skipWs rem col).1.length ≤ rem.length := by
  induction rem generalizing col with
  | nil => simp [skipWs]
  | cons c rest ih =>
    simp only [skipWs]
    split
    · exact Nat.le_trans ih (by simp)
    · simp

theorem numLoop_rem_length {base : Nat} {rem : List Char} {col : Nat}
    {acc : List Char} {f : Bool} :
    (numLoop base rem col acc f).2.2.1.length ≤ rem.length := by
  induction rem generalizing col acc f with
  | nil => simp [numLoop]
  | cons c rest ih =>
    simp only [numLoop]
    split_ifs
    all_goals try exact Nat.le_trans ih (by simp)
    all_goals simp

theorem alphaLoop_rem_length {rem : List Char} {col : Nat} {acc : String} :
    (alphaLoop rem col acc).2.1.length ≤ rem.length := by
  induction rem generalizing col acc with
  | nil => simp [alphaLoop]
  | cons c rest ih =>
    simp only [alphaLoop]
    split
    · exact Nat.le_trans ih (by simp)
    · simp

theorem symLoop_rem_length {rem : List Char} {col : Nat} {acc : String} :
    (symLoop rem col acc).2.1.length ≤ rem.length := by
  induction rem generalizing col acc with
  | nil => simp [symLoop]
  | cons c rest ih =>
    simp only [symLoop]
    split
    · exact Nat.le_trans ih (by simp)
    · simp

theorem charLitLoop_rem_length {line : Nat} {startPos : Pos}
    {rem : List Char} {col : Nat} {acc : List Char} {tok : Token}
    {rem' : List Char} {col' : Nat}
    (h : charLitLoop line startPos rem col acc = .ok (tok, rem', col')) :
    rem'.length ≤ rem.length := by
  have H : ∀ (n : Nat) (rem : List Char) (col : Nat) (acc : List Char)
      (tok : Token) (rem' : List Char) (col' : Nat), rem.length = n →
      charLitLoop line startPos rem col acc = .ok (tok, rem', col') →
      rem'.length ≤ rem.length := by
    intro n
    induction n using Nat.strong_induction_on with
    | _ n ih =>
      intro rem col acc tok rem' col' hn h
      match rem, hn with
      | [], hn =>
        rw [charLitLoop.eq_def] at h
        exact Except.noConfusion h
      | c :: rest, hn =>
        rw [charLitLoop.eq_def] at h
        dsimp only at h
        split_ifs at h
        · split at h
          · exact Except.noConfusion h
          · injection h with h1
            injection h1 with h1a h2
            injection h2 with h2a h2b
            subst h2a
            simp
          · exact Except.noConfusion h
        · split at h
          · exact Except.noConfusion h
          · rename_i ch₀ rem₀ col₀ hesc
            have h₂ := handleEscSeq_rem_length hesc
            have h₃ := ih rem₀.length (by omega) rem₀ col₀ (acc ++ [ch₀])
              tok rem' col' rfl h
            omega
        · have h₃ := ih rest.length (by rw [← hn]; simp) rest (col + 1)
            (acc ++ [c]) tok rem' col' rfl h
          simp only [List.length_cons]
          omega
  exact H rem.length rem col acc tok rem' col' rfl h

theorem strLitLoop_rem_length {line : Nat} {startPos : Pos}
    {rem : List Char} {col : Nat} {acc : String} {tok : Token}
    {rem' : List Char} {col' : Nat}
    (h : strLitLoop line startPos rem col acc = .ok (tok, rem', col')) :
    rem'.length ≤ rem.length := by
  have H : ∀ (n : Nat) (rem : List Char) (col : Nat) (acc : String)
      (tok : Token) (rem' : List Char) (col' : Nat), rem.length = n →
      strLitLoop line startPos rem col acc = .ok (tok, rem', col') →
      rem'.length ≤ rem.length := by
    intro n
    induction n using Nat.strong_induction_on with
    | _ n ih =>
      intro rem col acc tok rem' col' hn h
      match rem, hn with
      | [], hn =>
        rw [strLitLoop.eq_def] at h
        exact Except.noConfusion h
      | c :: rest, hn =>
        rw [strLitLoop.eq_def] at h
        dsimp only at h
        split_ifs at h
        · injection h with h1
          injection h1 with h1a h2
          injection h2 with h2a h2b
          subst h2a
          simp
        · split at h
          · exact Except.noConfusion h
          · rename_i ch₀ rem₀ col₀ hesc
            have h₂ := handleEscSeq_rem_length hesc
            have h₃ := ih rem₀.length (by omega) rem₀ col₀ (acc.push ch₀)
              tok rem' col' rfl h
            omega
        · have h₃ := ih rest.length (by rw [← hn]; simp) rest (col + 1)
            (acc.push c) tok rem' col' rfl h
          simp only [List.length_cons]
          omega
  exact H rem.length rem col acc tok rem' col' rfl h

theorem skipLine_fst_length {rem : List Char} {col : Nat} :
    (skipLine rem col).1.length ≤ rem.length := by
  induction rem generalizing col with
  | nil => simp [skipLine]
  | cons c rest ih =>
    simp only [skipLine]
    exact Nat.le_trans ih (by simp)

theorem lexLp_rem_length {line : Nat} {rem : List Char} {col : Nat} :
    (lexLp line rem col).2.1.length ≤ rem.tail.length := by
  simp only [lexLp]
  split
  · rename_i rest heq
    rw [heq]
    simp
  · simp

theorem lexSym_rem_length {line : Nat} {la : Char} {rem : List Char} {col : Nat} :
    (lexSym line la rem col).2.1.length ≤ rem.tail.length := by
  simp only [lexSym]
  exact symLoop_rem_length

theorem lexAlpha_rem_length {line : Nat} {la : Char} {rem : List Char} {col : Nat} :
    (lexAlpha line la rem col).2.1.length ≤ rem.tail.length := by
  simp only [lexAlpha]
  exact alphaLoop_rem_length

theorem lexRawStringLit_rem_length {line : Nat} {rem : List Char} {col : Nat} :
    (lexRawStringLit line rem col).2.1.length ≤ rem.tail.length := by
  simp only [lexRawStringLit]
  simp

theorem numPfx_rem_length {la : Char} {rem₀ : List Char} {col₁ : Nat} :
    (numPfx la rem₀ col₁).2.2.1.length ≤ rem₀.length := by
  simp only [numPfx]
  split_ifs
  · split
    · split_ifs <;> simp
    · simp
  · simp

theorem lexNumLit_rem_length {line : Nat} {la : Char} {rem : List Char}
    {col : Nat} {tok : Token} {rem' : List Char} {col' : Nat}
    (h : lexNumLit line la rem col = .ok (tok, rem', col')) :
    rem'.length ≤ rem.tail.length := by
  simp only [lexNumLit] at h
  have h₁ : (numPfx la rem.tail (col + 1)).2.2.1.length ≤ rem.tail.length :=
    numPfx_rem_length
  have h₂ := @numLoop_rem_length (numPfx la rem.tail (col + 1)).1
    (numPfx la rem.tail (col + 1)).2.2.1
    (numPfx la rem.tail (col + 1)).2.2.2
    (numPfx la rem.tail (col + 1)).2.1 false
  split_ifs at h
  · split at h
    · injection h with e1
      injection e1 with e1a e2
      injection e2 with e2a e2b
      subst e2a
      omega
    · injection h
  · split at h
    · injection h with e1
      injection e1 with e1a e2
      injection e2 with e2a e2b
      subst e2a
      omega
    · injection h

theorem lexCharLit_rem_length {line : Nat} {rem : List Char} {col : Nat}
    {tok : Token} {rem' : List Char} {col' : Nat}
    (h : lexCharLit line rem col = .ok (tok, rem', col')) :
    rem'.length ≤ rem.tail.length := by
  exact charLitLoop_rem_length h

theorem lexQuotedStrLit_rem_length {line : Nat} {rem : List Char} {col : Nat}
    {tok : Token} {rem' : List Char} {col' : Nat}
    (h : lexQuotedStrLit line rem col = .ok (tok, rem', col')) :
    rem'.length ≤ rem.tail.length := by
  exact strLitLoop_rem_length h

theorem lexBackslash_rem_length {line : Nat} {rem : List Char} {col : Nat} :
    (lexBackslash line rem col).2.1.length ≤ rem.tail.length := by
  simp only [lexBackslash]
  split
  · exact lexRawStringLit_rem_length
  · exact lexSym_rem_length

theorem dispatch_rem_length {line : Nat} {c : Char} {rest : List Char}
    {col : Nat} {otok : Option Token} {rem' : List Char} {col' : Nat}
    (h : dispatch line c (c :: rest) col = .ok (otok, rem', col')) :
    rem'.length < (c :: rest).length := by
  unfold dispatch at h
  split at h
  · -- left parenthesis
    simp only [pureTok] at h
    injection h with e1
    injection e1 with e1a e2
    injection e2 with e2a e2b
    subst e2a
    exact Nat.lt_of_le_of_lt lexLp_rem_length (by simp)
  · -- right parenthesis
    simp only [pureTok] at h
    injection h with e1
    injection e1 with e1a e2
    injection e2 with e2a e2b
    subst e2a
    simp [lexPunct]
  · -- left bracket
    simp only [pureTok] at h
    injection h with e1
    injection e1 with e1a e2
    injection e2 with e2a e2b
    subst e2a
    simp [lexPunct]
  · -- right bracket
    simp only [pureTok] at h
    injection h with e1
    injection e1 with e1a e2
    injection e2 with e2a e2b
    subst e2a
    simp [lexPunct]
  · -- left curly brace
    simp only [pureTok] at h
    injection h with e1
    injection e1 with e1a e2
    injection e2 with e2a e2b
    subst e2a
    simp [lexPunct]
  · -- right curly brace
    simp only [pureTok] at h
    injection h with e1
    injection e1 with e1a e2
    injection e2 with e2a e2b
    subst e2a
    simp [lexPunct]
  · -- semicolon
    simp only [pureTok] at h
    injection h with e1
    injection e1 with e1a e2
    injection e2 with e2a e2b
    subst e2a
    simp [lexPunct]
  · -- hyphen: comment or symbolic name
    split at h
    · rename_i r heq
      simp only [pureTok] at h
      injection h with e1
      injection e1 with e1a e2
      injection e2 with e2a e2b
      subst e2a
      simp only [lexHyphen] at heq
      split at heq
      · exact Option.noConfusion heq
      · injection heq with heq1
        subst heq1
        exact Nat.lt_of_le_of_lt lexSym_rem_length (by simp)
    · injection h with e1
      injection e1 with e1a e2
      injection e2 with e2a e2b
      subst e2a
      have h₀ := @skipLine_fst_length rest (col + 1)
      simp only [skipLine, List.length_cons]
      omega
  · -- backslash: raw string or symbolic name
    simp only [pureTok] at h
    injection h with e1
    injection e1 with e1a e2
    injection e2 with e2a e2b
    subst e2a
    exact Nat.lt_of_le_of_lt lexBackslash_rem_length (by simp)
  · -- character literal
    revert h
    simp only [tokOk]
    split
    · intro h
      exact Except.noConfusion h
    · rename_i t rem₂ col₂ heq
      intro h
      injection h with e1
      injection e1 with e1a e2
      injection e2 with e2a e2b
      subst e2a
      exact Nat.lt_of_le_of_lt (lexCharLit_rem_length heq) (by simp)
  · -- string literal
    revert h
    simp only [tokOk]
    split
    · intro h
      exact Except.noConfusion h
    · rename_i t rem₂ col₂ heq
      intro h
      injection h with e1
      injection e1 with e1a e2
      injection e2 with e2a e2b
      subst e2a
      exact Nat.lt_of_le_of_lt (lexQuotedStrLit_rem_length heq) (by simp)
  · -- number literal
    revert h
    simp only [tokOk]
    split
    · intro h
      exact Except.noConfusion h
    · rename_i t rem₂ col₂ heq
      intro h
      injection h with e1
      injection e1 with e1a e2
      injection e2 with e2a e2b
      subst e2a
      exact Nat.lt_of_le_of_lt (lexNumLit_rem_length heq) (by simp)
  · -- alphabetic name
    simp only [pureTok] at h
    injection h with e1
    injection e1 with e1a e2
    injection e2 with e2a e2b
    subst e2a
    exact Nat.lt_of_le_of_lt lexAlpha_rem_length (by simp)
  · -- symbolic name
    simp only [pureTok] at h
    injection h with e1
    injection e1 with e1a e2
    injection e2 with e2a e2b
    subst e2a
    exact Nat.lt_of_le_of_lt lexSym_rem_length (by simp)
  · -- unexpected character
    exact Except.noConfusion h

/-- The token loop of LineLexer::tokenize: skips whitespace, classifies
the lookahead, and collects the produced tokens; the comment arm breaks
out of the loop. The whitespace run that skip_ws removes before each
dispatch is consumed here one character per loop iteration, which skips
exactly the same characters and advances the column identically (see
lineTokenize_skipWs below). -/
def lineTokenize (line : Nat) (rem : List Char) (col : Nat) :
    Except Error (List Token) :=
  match rem with
  | [] => .ok []
  | c :: rest =>
    match rustIsWhitespace c with
    | true => lineTokenize line rest (col + 1)
    | false =>
      match hd : dispatch line c (c :: rest) col with
      | .error e => .error e
      | .ok (none, _, _) => .ok []
      | .ok (some tok, rem₂, col₂) =>
        match lineTokenize line rem₂ col₂ with
        | .error e => .error e
        | .ok toks => .ok (tok :: toks)
termination_by rem.length
decreasing_by
  · simp
  · have h₂ := dispatch_rem_length hd
    simp only [List.length_cons] at *
    omega

/-- Splits Lynx source into lines the way Rust str::lines does: pieces
end at a line feed (a carriage return directly before the line feed is
removed with it), and a final piece not ended by a line feed is kept
verbatim; the accumulator holds the current piece reversed. -/
def linesAux (s : List Char) (acc : List Char) : List (List Char) :=
  match s with
  | [] => if acc.isEmpty then [] else [acc.reverse]
  | c :: cs =>
    if c = '\n' then
      (if acc.head? = some '\r' then acc.tail.reverse else acc.reverse) ::
        linesAux cs []
    else linesAux cs (c :: acc)

/-- Models Rust str::lines, which the top-level tokenize iterates over. -/
def rustLines (s : List Char) : List (List Char) :=
  linesAux s []

/-- The per-line loop of the top-level tokenize: runs LineLexer on each
line with its 1-based line number, concatenating the tokens and stopping
at the first error. -/
def tokenizeLines (lns : List (List Char)) (lineNo : Nat) :
    Except Error (List Token) :=
  match lns with
  | [] => .ok []
  | l :: ls =>
    match lineTokenize lineNo l 0 with
    | .error e => .error e
    | .ok ts =>
      match tokenizeLines ls (lineNo + 1) with
      | .error e => .error e
      | .ok rest => .ok (ts ++ rest)

/-- Lexes Lynx source (source: the free function tokenize), returning
either all tokens or the first error encountered. -/
def tokenize (src : String) : Except Error (List Token) :=
  tokenizeLines (rustLines src.data) 1

/-- Numeric tokens carry no sign from the source: the value is
non-negative (trivially true for non-numeric kinds). -/
def numOk : TokenKind → Bool
  | .IntLit n => decide (0 ≤ n)
  | .FloatLit q => decide (0 ≤ q)
  | _ => true

/-- Strict lexicographic order on positions. -/
def posLt (p q : Pos) : Bool :=
  decide (p.line < q.line) || (decide (p.line = q.line) && decide (p.col < q.col))

/-- Reflexive lexicographic order on positions. -/
def posLe (p q : Pos) : Bool :=
  posLt p q || decide (p = q)

/-- Well-formedness of a token list produced by one line lexer run
starting after column col of the given line: every span stays on that
line, starts strictly after the previous end (col before the first
token), is non-empty in the inclusive sense, and carries a non-negative
numeric value. -/
def tokensOrderedFrom (line col : Nat) : List Token → Bool
  | [] => true
  | t :: ts =>
    decide (t.span.start.line = line) && decide (t.span.stop.line = line) &&
    decide (col < t.span.start.col) &&
    decide (t.span.start.col ≤ t.span.stop.col) && numOk t.kind &&
    tokensOrderedFrom line t.span.stop.col ts

/-- Well-formedness of a full token stream: spans are strictly
increasing in lexicographic position order (each span starts strictly
after the previous span's end, hence spans never overlap), each span's
start is at most its end, and numeric values are non-negative. -/
def tokensChainFrom (p : Pos) : List Token → Bool
  | [] => true
  | t :: ts =>
    posLt p t.span.start && posLe t.span.start t.span.stop &&
    numOk t.kind && tokensChainFrom t.span.stop ts

theorem skipWs_snd_col {rem : List Char} {col : Nat} :
    col ≤ (skipWs rem col).2 := by
  induction rem generalizing col with
  | nil => simp [skipWs]
  | cons c rest ih =>
    simp only [skipWs]
    split
    · exact Nat.le_trans (Nat.le_succ col) ih
    · simp

theorem symLoop_snd_col {rem : List Char} {col : Nat} {acc : String} :
    col ≤ (symLoop rem col acc).2.2 := by
  induction rem generalizing col acc with
  | nil => simp [symLoop]
  | cons c rest ih =>
    simp only [symLoop]
    split
    · exact Nat.le_trans (Nat.le_succ col) ih
    · simp

theorem alphaLoop_snd_col {rem : List Char} {col : Nat} {acc : String} :
    col ≤ (alphaLoop rem col acc).2.2 := by
  induction rem generalizing col acc with
  | nil => simp [alphaLoop]
  | cons c rest ih =>
    simp only [alphaLoop]
    split
    · exact Nat.le_trans (Nat.le_succ col) ih
    · simp

theorem rawLoop_snd_col {rem : List Char} {col : Nat} {acc : String} :
    col ≤ (rawLoop rem col acc).2 := by
  induction rem generalizing col acc with
  | nil => simp [rawLoop]
  | cons c rest ih =>
    simp only [rawLoop]
    exact Nat.le_trans (Nat.le_succ col) ih

theorem numLoop_snd_col {base : Nat} {rem : List Char} {col : Nat}
    {acc : List Char} {f : Bool} :
    col ≤ (numLoop base rem col acc f).2.2.2 := by
  induction rem generalizing col acc f with
  | nil => simp [numLoop]
  | cons c rest ih =>
    simp only [numLoop]
    split_ifs
    all_goals try exact Nat.le_trans (Nat.le_succ col) ih
    all_goals simp

theorem hexLoop_snd_col {line : Nat} {escStart litStart : Pos}
    {rem : List Char} {col : Nat} {acc hexStr rem' : List Char} {col' : Nat}
    (h : hexLoop line escStart litStart rem col acc = .ok (hexStr, rem', col')) :
    col < col' := by
  induction rem generalizing col acc with
  | nil => simp [hexLoop] at h
  | cons c rest ih =>
    simp only [hexLoop] at h
    split at h
    · injection h with h1
      injection h1 with h1a h2
      injection h2 with h2a h2b
      omega
    · split at h
      · exact Nat.lt_trans (Nat.lt_succ_self col) (ih h)
      · exact Except.noConfusion h

theorem handleEscSeq_snd_col {line : Nat} {litStart : Pos}
    {rem : List Char} {col : Nat} {ch : Char} {rem' : List Char} {col' : Nat}
    (h : handleEscSeq line litStart rem col = .ok (ch, rem', col')) :
    col < col' := by
  match rem with
  | [] => simp [handleEscSeq] at h
  | b :: rem₁ =>
    simp only [handleEscSeq, List.tail_cons] at h
    split at h
    · exact Except.noConfusion h
    · rename_i c rem₂
      split_ifs at h
      all_goals try (injection h with h1)
      all_goals try (injection h1 with h1a h2)
      all_goals try (injection h2 with h2a h2b)
      all_goals try omega
      -- remaining: the unicode branch
      split at h
      · split at h
        · exact Except.noConfusion h
        · rename_i hexStr rem₄ col₄ hh
          split at h
          · exact Except.noConfusion h
          · split at h
            · exact Except.noConfusion h
            · injection h with h1
              injection h1 with h1a h2
              injection h2 with h2a h2b
              have := hexLoop_snd_col hh
              omega
      · exact Except.noConfusion h

theorem i64FromStrRadix_nonneg {ds : List Char} {base : Nat} {n : Int}
    (h : i64FromStrRadix ds base = some n) : 0 ≤ n := by
  unfold i64FromStrRadix at h
  split_ifs at h
  all_goals first
    | exact Option.noConfusion h
    | (injection h with h1
       subst h1
       exact Int.natCast_nonneg _)

theorem parseFloatModel_nonneg {ds : List Char} {q : Rat}
    (h : parseFloatModel ds = some q) : 0 ≤ q := by
  unfold parseFloatModel at h
  dsimp only at h
  split at h
  all_goals split_ifs at h
  all_goals first
    | exact Option.noConfusion h
    | (injection h with h1
       subst h1
       exact Nat.cast_nonneg _)
    | (injection h with h1
       subst h1
       exact Rat.mkRat_nonneg (Int.natCast_nonneg _) _)

/-- The uniform shape of a successful single-token lexing step that
started at column col: the span starts at the following column on the
same line, ends at the final column, at least one character was
consumed, and a numeric value is non-negative. -/
def stepSpans (line col : Nat) (r : Token × List Char × Nat) : Prop :=
  r.1.span.start = ⟨line, col + 1⟩ ∧ r.1.span.stop = ⟨line, r.2.2⟩ ∧
  col < r.2.2 ∧ numOk r.1.kind = true

theorem lexPunct_spans {k : TokenKind} {line : Nat} {rem : List Char}
    {col : Nat} (hk : numOk k = true) :
    stepSpans line col (lexPunct k line rem col) := by
  exact ⟨rfl, rfl, Nat.lt_succ_self col, hk⟩

theorem lexLp_spans {line : Nat} {rem : List Char} {col : Nat} :
    stepSpans line col (lexLp line rem col) := by
  simp only [lexLp, stepSpans]
  split
  · exact ⟨rfl, rfl, show col < col + 1 + 1 by omega, rfl⟩
  · exact ⟨rfl, rfl, show col < col + 1 by omega, rfl⟩

theorem lexSym_spans {line : Nat} {la : Char} {rem : List Char} {col : Nat} :
    stepSpans line col (lexSym line la rem col) := by
  have := @symLoop_snd_col rem.tail (col + 1) (String.singleton la)
  exact ⟨rfl, rfl,
    show col < (symLoop rem.tail (col + 1) (String.singleton la)).2.2
      by omega, rfl⟩

theorem lexAlpha_spans {line : Nat} {la : Char} {rem : List Char} {col : Nat} :
    stepSpans line col (lexAlpha line la rem col) := by
  have := @alphaLoop_snd_col rem.tail (col + 1) (String.singleton la)
  exact ⟨rfl, rfl,
    show col < (alphaLoop rem.tail (col + 1) (String.singleton la)).2.2
      by omega, rfl⟩

theorem lexRawStringLit_spans {line : Nat} {rem : List Char} {col : Nat} :
    stepSpans line col (lexRawStringLit line rem col) := by
  have := @rawLoop_snd_col rem.tail.tail (col + 1 + 1) ("")
  exact ⟨rfl, rfl,
    show col < (rawLoop rem.tail.tail (col + 1 + 1) "").2 by omega, rfl⟩

theorem lexBackslash_spans {line : Nat} {rem : List Char} {col : Nat} :
    stepSpans line col (lexBackslash line rem col) := by
  simp only [lexBackslash]
  split
  · exact lexRawStringLit_spans
  · exact lexSym_spans

theorem charLitLoop_spans {line : Nat} {sp : Pos} {rem : List Char}
    {colL : Nat} {acc : List Char} {tok : Token} {rem' : List Char}
    {col' : Nat}
    (h : charLitLoop line sp rem colL acc = .ok (tok, rem', col')) :
    tok.span.start = sp ∧ tok.span.stop = ⟨line, col'⟩ ∧ colL < col' ∧
      numOk tok.kind = true := by
  have H : ∀ (n : Nat) (rem : List Char) (colL : Nat) (acc : List Char)
      (tok : Token) (rem' : List Char) (col' : Nat), rem.length = n →
      charLitLoop line sp rem colL acc = .ok (tok, rem', col') →
      tok.span.start = sp ∧ tok.span.stop = ⟨line, col'⟩ ∧ colL < col' ∧
        numOk tok.kind = true := by
    intro n
    induction n using Nat.strong_induction_on with
    | _ n ih =>
      intro rem colL acc tok rem' col' hn h
      match rem, hn with
      | [], hn =>
        rw [charLitLoop.eq_def] at h
        exact Except.noConfusion h
      | c :: rest, hn =>
        rw [charLitLoop.eq_def] at h
        dsimp only at h
        split_ifs at h
        · split at h
          · exact Except.noConfusion h
          · injection h with h1
            injection h1 with h1a h2
            injection h2 with h2a h2b
            subst h1a
            subst h2b
            exact ⟨rfl, rfl, Nat.lt_succ_self colL, rfl⟩
          · exact Except.noConfusion h
        · split at h
          · exact Except.noConfusion h
          · rename_i ch₀ rem₀ col₀ hesc
            have h₂ := handleEscSeq_snd_col hesc
            have h₃ := handleEscSeq_rem_length hesc
            have h₄ := ih rem₀.length (by omega) rem₀ col₀ (acc ++ [ch₀])
              tok rem' col' rfl h
            exact ⟨h₄.1, h₄.2.1, by omega, h₄.2.2.2⟩
        · have h₄ := ih rest.length (by rw [← hn]; simp) rest (colL + 1)
            (acc ++ [c]) tok rem' col' rfl h
          exact ⟨h₄.1, h₄.2.1, by omega, h₄.2.2.2⟩
  exact H rem.length rem colL acc tok rem' col' rfl h

theorem strLitLoop_spans {line : Nat} {sp : Pos} {rem : List Char}
    {colL : Nat} {acc : String} {tok : Token} {rem' : List Char}
    {col' : Nat}
    (h : strLitLoop line sp rem colL acc = .ok (tok, rem', col')) :
    tok.span.start = sp ∧ tok.span.stop = ⟨line, col'⟩ ∧ colL < col' ∧
      numOk tok.kind = true := by
  have H : ∀ (n : Nat) (rem : List Char) (colL : Nat) (acc : String)
      (tok : Token) (rem' : List Char) (col' : Nat), rem.length = n →
      strLitLoop line sp rem colL acc = .ok (tok, rem', col') →
      tok.span.start = sp ∧ tok.span.stop = ⟨line, col'⟩ ∧ colL < col' ∧
        numOk tok.kind = true := by
    intro n
    induction n using Nat.strong_induction_on with
    | _ n ih =>
      intro rem colL acc tok rem' col' hn h
      match rem, hn with
      | [], hn =>
        rw [strLitLoop.eq_def] at h
        exact Except.noConfusion h
      | c :: rest, hn =>
        rw [strLitLoop.eq_def] at h
        dsimp only at h
        split_ifs at h
        · injection h with h1
          injection h1 with h1a h2
          injection h2 with h2a h2b
          subst h1a
          subst h2b
          exact ⟨rfl, rfl, Nat.lt_succ_self colL, rfl⟩
        · split at h
          · exact Except.noConfusion h
          · rename_i ch₀ rem₀ col₀ hesc
            have h₂ := handleEscSeq_snd_col hesc
            have h₃ := handleEscSeq_rem_length hesc
            have h₄ := ih rem₀.length (by omega) rem₀ col₀ (acc.push ch₀)
              tok rem' col' rfl h
            exact ⟨h₄.1, h₄.2.1, by omega, h₄.2.2.2⟩
        · have h₄ := ih rest.length (by rw [← hn]; simp) rest (colL + 1)
            (acc.push c) tok rem' col' rfl h
          exact ⟨h₄.1, h₄.2.1, by omega, h₄.2.2.2⟩
  exact H rem.length rem colL acc tok rem' col' rfl h

theorem numPfx_snd_col {la : Char} {rem₀ : List Char} {col₁ : Nat} :
    col₁ ≤ (numPfx la rem₀ col₁).2.2.2 := by
  simp only [numPfx]
  split_ifs
  · split
    · split_ifs <;> simp
    · simp
  · simp

theorem lexNumLit_spans {line : Nat} {la : Char} {rem : List Char}
    {col : Nat} {tok : Token} {rem₂ : List Char} {col₃ : Nat}
    (h : lexNumLit line la rem col = .ok (tok, rem₂, col₃)) :
    stepSpans line col (tok, rem₂, col₃) := by
  simp only [lexNumLit] at h
  have h₁ : col + 1 ≤ (numPfx la rem.tail (col + 1)).2.2.2 := numPfx_snd_col
  have h₂ := @numLoop_snd_col (numPfx la rem.tail (col + 1)).1
    (numPfx la rem.tail (col + 1)).2.2.1
    (numPfx la rem.tail (col + 1)).2.2.2
    (numPfx la rem.tail (col + 1)).2.1 false
  split_ifs at h
  · split at h
    · rename_i q hq
      injection h with e1
      injection e1 with e1a e2
      injection e2 with e2a e2b
      subst e1a
      subst e2b
      refine ⟨rfl, rfl, show col < (numLoop (numPfx la rem.tail (col + 1)).1
          (numPfx la rem.tail (col + 1)).2.2.1
          (numPfx la rem.tail (col + 1)).2.2.2
          (numPfx la rem.tail (col + 1)).2.1 false).2.2.2 by omega, ?_⟩
      simpa [numOk] using parseFloatModel_nonneg hq
    · exact Except.noConfusion h
  · split at h
    · rename_i n hq
      injection h with e1
      injection e1 with e1a e2
      injection e2 with e2a e2b
      subst e1a
      subst e2b
      refine ⟨rfl, rfl, show col < (numLoop (numPfx la rem.tail (col + 1)).1
          (numPfx la rem.tail (col + 1)).2.2.1
          (numPfx la rem.tail (col + 1)).2.2.2
          (numPfx la rem.tail (col + 1)).2.1 false).2.2.2 by omega, ?_⟩
      simpa [numOk] using i64FromStrRadix_nonneg hq
    · exact Except.noConfusion h

theorem dispatch_spans {line : Nat} {c : Char} {rest : List Char}
    {col : Nat} {tok : Token} {rem₂ : List Char} {col₂ : Nat}
    (h : dispatch line c (c :: rest) col = .ok (some tok, rem₂, col₂)) :
    tok.span.start = ⟨line, col + 1⟩ ∧ tok.span.stop = ⟨line, col₂⟩ ∧
      col < col₂ ∧ numOk tok.kind = true := by
  unfold dispatch at h
  split at h
  · -- left parenthesis
    simp only [pureTok] at h
    injection h with e1
    injection e1 with e1a e2
    injection e2 with e2a e2b
    injection e1a with e1c
    subst e1c
    subst e2b
    exact lexLp_spans
  · simp only [pureTok] at h
    injection h with e1
    injection e1 with e1a e2
    injection e2 with e2a e2b
    injection e1a with e1c
    subst e1c
    subst e2b
    exact lexPunct_spans rfl
  · simp only [pureTok] at h
    injection h with e1
    injection e1 with e1a e2
    injection e2 with e2a e2b
    injection e1a with e1c
    subst e1c
    subst e2b
    exact lexPunct_spans rfl
  · simp only [pureTok] at h
    injection h with e1
    injection e1 with e1a e2
    injection e2 with e2a e2b
    injection e1a with e1c
    subst e1c
    subst e2b
    exact lexPunct_spans rfl
  · simp only [pureTok] at h
    injection h with e1
    injection e1 with e1a e2
    injection e2 with e2a e2b
    injection e1a with e1c
    subst e1c
    subst e2b
    exact lexPunct_spans rfl
  · simp only [pureTok] at h
    injection h with e1
    injection e1 with e1a e2
    injection e2 with e2a e2b
    injection e1a with e1c
    subst e1c
    subst e2b
    exact lexPunct_spans rfl
  · simp only [pureTok] at h
    injection h with e1
    injection e1 with e1a e2
    injection e2 with e2a e2b
    injection e1a with e1c
    subst e1c
    subst e2b
    exact lexPunct_spans rfl
  · -- hyphen
    split at h
    · rename_i r heq
      simp only [pureTok] at h
      injection h with e1
      injection e1 with e1a e2
      injection e2 with e2a e2b
      injection e1a with e1c
      subst e1c
      subst e2b
      simp only [lexHyphen] at heq
      split at heq
      · exact Option.noConfusion heq
      · injection heq with heq1
        subst heq1
        exact lexSym_spans
    · injection h with e1
      injection e1 with e1a e2
      exact Option.noConfusion e1a
  · -- backslash
    simp only [pureTok] at h
    injection h with e1
    injection e1 with e1a e2
    injection e2 with e2a e2b
    injection e1a with e1c
    subst e1c
    subst e2b
    exact lexBackslash_spans
  · -- character literal
    revert h
    simp only [tokOk]
    split
    · intro h
      exact Except.noConfusion h
    · rename_i t rem₀ col₀ heq
      intro h
      injection h with e1
      injection e1 with e1a e2
      injection e2 with e2a e2b
      injection e1a with e1c
      subst e1c
      subst e2a
      subst e2b
      obtain ⟨s1, s2, s3, s4⟩ := charLitLoop_spans heq
      exact ⟨s1, s2, by omega, s4⟩
  · -- string literal
    revert h
    simp only [tokOk]
    split
    · intro h
      exact Except.noConfusion h
    · rename_i t rem₀ col₀ heq
      intro h
      injection h with e1
      injection e1 with e1a e2
      injection e2 with e2a e2b
      injection e1a with e1c
      subst e1c
      subst e2a
      subst e2b
      obtain ⟨s1, s2, s3, s4⟩ := strLitLoop_spans heq
      exact ⟨s1, s2, by omega, s4⟩
  · -- number literal
    revert h
    simp only [tokOk]
    split
    · intro h
      exact Except.noConfusion h
    · rename_i t rem₀ col₀ heq
      intro h
      injection h with e1
      injection e1 with e1a e2
      injection e2 with e2a e2b
      injection e1a with e1c
      subst e1c
      subst e2a
      subst e2b
      exact lexNumLit_spans heq
  · -- alphabetic name
    simp only [pureTok] at h
    injection h with e1
    injection e1 with e1a e2
    injection e2 with e2a e2b
    injection e1a with e1c
    subst e1c
    subst e2b
    exact lexAlpha_spans
  · -- symbolic name
    simp only [pureTok] at h
    injection h with e1
    injection e1 with e1a e2
    injection e2 with e2a e2b
    injection e1a with e1c
    subst e1c
    subst e2b
    exact lexSym_spans
  · exact Except.noConfusion h

theorem tokensOrderedFrom_weaken {line col col' : Nat} {ts : List Token}
    (hc : col ≤ col') (h : tokensOrderedFrom line col' ts = true) :
    tokensOrderedFrom line col ts = true := by
  cases ts with
  | nil => rfl
  | cons t ts =>
    simp only [tokensOrderedFrom, Bool.and_eq_true, decide_eq_true_eq] at h ⊢
    obtain ⟨⟨⟨⟨⟨h1, h2⟩, h3⟩, h4⟩, h5⟩, h6⟩ := h
    exact ⟨⟨⟨⟨⟨h1, h2⟩, by omega⟩, h4⟩, h5⟩, h6⟩

theorem lineTokenize_ordered {line : Nat} {rem : List Char} {col : Nat}
    {toks : List Token}
    (h : lineTokenize line rem col = .ok toks) :
    tokensOrderedFrom line col toks = true := by
  have H : ∀ (n : Nat) (rem : List Char) (col : Nat) (toks : List Token),
      rem.length = n → lineTokenize line rem col = .ok toks →
      tokensOrderedFrom line col toks = true := by
    intro n
    induction n using Nat.strong_induction_on with
    | _ n ih =>
      intro rem col toks hn h
      rw [lineTokenize.eq_def] at h
      split at h
      · injection h with h1
        subst h1
        rfl
      · rename_i c rest
        cases hws : rustIsWhitespace c with
        | true =>
          rw [hws] at h
          dsimp only at h
          have hrest := ih rest.length
            (by subst hn; simp) rest (col + 1) toks rfl h
          exact tokensOrderedFrom_weaken (by omega) hrest
        | false =>
          rw [hws] at h
          dsimp only at h
          split at h
          · exact Except.noConfusion h
          · injection h with h1
            subst h1
            rfl
          · rename_i tok rem₂ col₂ hdsp
            split at h
            · exact Except.noConfusion h
            · rename_i toks₀ hrec
              injection h with h1
              subst h1
              have hspans := dispatch_spans hdsp
              have hlt := dispatch_rem_length hdsp
              have hrest := ih rem₂.length (by subst hn; exact hlt)
                rem₂ col₂ toks₀ rfl hrec
              simp only [tokensOrderedFrom, Bool.and_eq_true,
                decide_eq_true_eq]
              obtain ⟨s1, s2, s3, s4⟩ := hspans
              refine ⟨⟨⟨⟨⟨?_, ?_⟩, ?_⟩, ?_⟩, ?_⟩, ?_⟩
              · rw [s1]
              · rw [s2]
              · rw [s1]
                dsimp only
                omega
              · rw [s1, s2]
                dsimp only
                omega
              · exact s4
              · rw [s2]
                exact hrest
  exact H rem.length rem col toks rfl h

theorem posLt_mk {l₁ c₁ l₂ c₂ : Nat} :
    posLt ⟨l₁, c₁⟩ ⟨l₂, c₂⟩ = true ↔ l₁ < l₂ ∨ (l₁ = l₂ ∧ c₁ < c₂) := by
  simp [posLt]

theorem posLe_mk {l₁ c₁ l₂ c₂ : Nat} :
    posLe ⟨l₁, c₁⟩ ⟨l₂, c₂⟩ = true ↔ l₁ < l₂ ∨ (l₁ = l₂ ∧ c₁ ≤ c₂) := by
  simp only [posLe, posLt, Bool.or_eq_true, Bool.and_eq_true,
    decide_eq_true_eq, Pos.mk.injEq]
  omega

theorem posLe_trans_posLt {p q r : Pos} (h₁ : posLe p q = true)
    (h₂ : posLt q r = true) : posLt p r = true := by
  cases p
  cases q
  cases r
  rw [posLe_mk] at h₁
  rw [posLt_mk] at h₂ ⊢
  omega

/-- Every token of the list lies entirely on the given line. -/
def linesAt (n : Nat) (ts : List Token) : Prop :=
  ∀ t ∈ ts, t.span.start.line = n ∧ t.span.stop.line = n

theorem orderedFrom_linesAt {line col : Nat} {ts : List Token}
    (h : tokensOrderedFrom line col ts = true) : linesAt line ts := by
  induction ts generalizing col with
  | nil => intro t ht; exact absurd ht (List.not_mem_nil t)
  | cons t ts ih =>
    simp only [tokensOrderedFrom, Bool.and_eq_true, decide_eq_true_eq] at h
    intro u hu
    rcases List.mem_cons.mp hu with rfl | hu
    · exact ⟨h.1.1.1.1.1, h.1.1.1.1.2⟩
    · exact ih h.2 u hu

theorem orderedFrom_chain {line col : Nat} {ts : List Token}
    (h : tokensOrderedFrom line col ts = true) :
    tokensChainFrom ⟨line, col⟩ ts = true := by
  induction ts generalizing col with
  | nil => rfl
  | cons t ts ih =>
    simp only [tokensOrderedFrom, Bool.and_eq_true, decide_eq_true_eq] at h
    obtain ⟨⟨⟨⟨⟨hsl, hel⟩, hcs⟩, hce⟩, hnum⟩, htail⟩ := h
    simp only [tokensChainFrom, Bool.and_eq_true]
    refine ⟨⟨⟨?_, ?_⟩, hnum⟩, ?_⟩
    · rcases ht : t.span.start with ⟨a, b⟩
      rw [ht] at hsl hcs
      exact posLt_mk.mpr (Or.inr ⟨hsl.symm, hcs⟩)
    · rcases ht : t.span.start with ⟨a, b⟩
      rcases ht₂ : t.span.stop with ⟨a₂, b₂⟩
      rw [ht] at hsl hce
      rw [ht₂] at hel hce
      exact posLe_mk.mpr (Or.inr ⟨hsl.trans hel.symm, hce⟩)
    · rcases ht₂ : t.span.stop with ⟨a₂, b₂⟩
      rw [ht₂] at hel htail
      subst hel
      exact ih htail

theorem chainWeaken {p q : Pos} {ts : List Token} (hpq : posLe p q = true)
    (h : tokensChainFrom q ts = true) : tokensChainFrom p ts = true := by
  cases ts with
  | nil => rfl
  | cons t ts =>
    simp only [tokensChainFrom, Bool.and_eq_true] at h ⊢
    exact ⟨⟨⟨posLe_trans_posLt hpq h.1.1.1, h.1.1.2⟩, h.1.2⟩, h.2⟩

theorem chainAppend {ts₁ ts₂ : List Token} {p : Pos} {n : Nat}
    (hp : p.line ≤ n) (hl : linesAt n ts₁)
    (h₁ : tokensChainFrom p ts₁ = true)
    (h₂ : tokensChainFrom ⟨n + 1, 0⟩ ts₂ = true) :
    tokensChainFrom p (ts₁ ++ ts₂) = true := by
  induction ts₁ generalizing p with
  | nil =>
    refine chainWeaken ?_ h₂
    rcases p with ⟨a, b⟩
    exact posLe_mk.mpr (Or.inl (by simpa using Nat.lt_succ_of_le hp))
  | cons t ts ih =>
    simp only [tokensChainFrom, Bool.and_eq_true, List.cons_append] at h₁ ⊢
    refine ⟨h₁.1, ?_⟩
    have hstop : t.span.stop.line = n := (hl t (List.mem_cons_self t ts)).2
    exact ih (by omega) (fun u hu => hl u (List.mem_cons_of_mem t hu)) h₁.2

theorem tokenizeLines_chain {lns : List (List Char)} {n : Nat}
    {toks : List Token} (h : tokenizeLines lns n = .ok toks) :
    tokensChainFrom ⟨n, 0⟩ toks = true := by
  induction lns generalizing n toks with
  | nil =>
    simp only [tokenizeLines] at h
    injection h with h1
    subst h1
    rfl
  | cons l ls ih =>
    simp only [tokenizeLines] at h
    split at h
    · exact Except.noConfusion h
    · rename_i ts hl
      split at h
      · exact Except.noConfusion h
      · rename_i rest hr
        injection h with h1
        subst h1
        have hord := lineTokenize_ordered hl
        exact chainAppend (Nat.le_refl n) (orderedFrom_linesAt hord)
          (orderedFrom_chain hord) (ih hr)

theorem tokenize_chain {src : String} {toks : List Token}
    (h : tokenize src = .ok toks) : tokensChainFrom ⟨1, 0⟩ toks = true :=
  tokenizeLines_chain h

theorem chain_numOk {p : Pos} {ts : List Token}
    (h : tokensChainFrom p ts = true) : ∀ t ∈ ts, numOk t.kind = true := by
  induction ts generalizing p with
  | nil => intro t ht; exact absurd ht (List.not_mem_nil t)
  | cons t ts ih =>
    simp only [tokensChainFrom, Bool.and_eq_true] at h
    intro u hu
    rcases List.mem_cons.mp hu with rfl | hu
    · exact h.1.2
    · exact ih h.2 u hu

theorem isDigit_toNat {c : Char} (h : c.isDigit = true) :
    48 ≤ c.toNat ∧ c.toNat ≤ 57 := by
  simp [Char.isDigit] at h
  exact ⟨h.1, h.2⟩

theorem not_ws_printable {c : Char} (h1 : 33 ≤ c.toNat) (h2 : c.toNat ≤ 126) :
    rustIsWhitespace c = false := by
  rw [← Bool.not_eq_true]
  simp only [rustIsWhitespace, Bool.or_eq_true, Bool.and_eq_true,
    decide_eq_true_eq]
  omega

theorem digit_not_ws {c : Char} (h : c.isDigit = true) :
    rustIsWhitespace c = false := by
  have := isDigit_toNat h
  exact not_ws_printable (by omega) (by omega)

theorem symChar_digit {c : Char} (h : c.isDigit = true) :
    symChar c = false := by
  rw [← Bool.not_eq_true]
  intro hmem
  have hm : c ∈ SYM_CHARS.data := List.elem_iff.mp hmem
  have hall : ∀ x ∈ SYM_CHARS.data, x.isDigit = false := by decide
  rw [hall c hm] at h
  exact Bool.noConfusion h

theorem classify_digit {c : Char} (h : c.isDigit = true) :
    classify c = .digit := by
  unfold classify
  rw [if_neg (fun e => absurd (e ▸ h) (by decide)),
    if_neg (fun e => absurd (e ▸ h) (by decide)),
    if_neg (fun e => absurd (e ▸ h) (by decide)),
    if_neg (fun e => absurd (e ▸ h) (by decide)),
    if_neg (fun e => absurd (e ▸ h) (by decide)),
    if_neg (fun e => absurd (e ▸ h) (by decide)),
    if_neg (fun e => absurd (e ▸ h) (by decide)),
    if_neg (fun e => absurd (e ▸ h) (by decide)),
    if_neg (fun e => absurd (e ▸ h) (by decide)),
    if_neg (fun e => absurd (e ▸ h) (by decide)),
    if_neg (fun e => absurd (e ▸ h) (by decide)),
    if_pos h]

theorem dispatch_digit {line : Nat} {c : Char} {rem : List Char} {col : Nat}
    (h : c.isDigit = true) :
    dispatch line c rem col = tokOk (lexNumLit line c rem col) := by
  unfold dispatch
  rw [classify_digit h]

theorem skipWs_not_ws {c : Char} {rest : List Char} {col : Nat}
    (h : rustIsWhitespace c = false) :
    skipWs (c :: rest) col = (c :: rest, col) := by
  simp [skipWs, h]

theorem linesAux_no_nl {l acc : List Char} (h : '\n' ∉ l) :
    linesAux l acc =
      if (acc.reverse ++ l).isEmpty then [] else [acc.reverse ++ l] := by
  induction l generalizing acc with
  | nil => simp [linesAux]
  | cons c cs ih =>
    have hc : c ≠ '\n' := fun e => h (e ▸ List.mem_cons_self c cs)
    have hcs : '\n' ∉ cs := fun e => h (List.mem_cons_of_mem c e)
    simp only [linesAux, if_neg hc]
    rw [ih hcs]
    simp [List.isEmpty_iff]

theorem rustLines_single {l : List Char} (h : '\n' ∉ l) (hne : l ≠ []) :
    rustLines l = [l] := by
  unfold rustLines
  rw [linesAux_no_nl h]
  simp [List.isEmpty_iff, hne]

theorem tokenize_single {l : List Char} (h : '\n' ∉ l) (hne : l ≠ []) :
    tokenize (String.mk l) = lineTokenize 1 l 0 := by
  show tokenizeLines (rustLines (String.mk l).data) 1 = _
  have hd : (String.mk l).data = l := rfl
  rw [hd, rustLines_single h hne]
  cases hlt : lineTokenize 1 l 0 with
  | error e => simp [tokenizeLines, hlt]
  | ok ts => simp [tokenizeLines, hlt]

theorem isValidDigit_ne {c : Char} {b : Nat} (h : isValidDigit c b = true) :
    c ≠ '_' ∧ c ≠ '.' := by
  unfold isValidDigit at h
  split at h
  all_goals constructor
  all_goals rintro rfl
  all_goals revert h
  all_goals decide

theorem numLoop_digits {base : Nat} {ds : List Char} {col : Nat}
    {acc : List Char} {f : Bool}
    (h : ∀ c ∈ ds, isValidDigit c base = true ∨ c = '_') :
    numLoop base ds col acc f =
      (acc ++ ds.filter (fun c => c ≠ '_'), f, [], col + ds.length) := by
  induction ds generalizing col acc with
  | nil => simp [numLoop]
  | cons c rest ih =>
    have hrest : ∀ x ∈ rest, isValidDigit x base = true ∨ x = '_' :=
      fun x hx => h x (List.mem_cons_of_mem c hx)
    rcases h c (List.mem_cons_self c rest) with hv | hu
    · obtain ⟨hu, hd⟩ := isValidDigit_ne hv
      simp only [numLoop, if_neg hu, Bool.and_eq_true, decide_eq_true_eq]
      rw [if_neg (fun e => hd e.1), if_pos hv, ih hrest, List.filter_cons,
        if_pos (show (decide (c ≠ '_')) = true by simp [hu]),
        List.length_cons]
      have harith : col + 1 + rest.length = col + (rest.length + 1) := by
        omega
      rw [harith]
      simp
    · subst hu
      simp only [numLoop, if_pos rfl]
      rw [ih hrest, List.filter_cons, List.length_cons]
      have harith : col + 1 + rest.length = col + (rest.length + 1) := by
        omega
      rw [harith]
      simp

theorem numPfx_dec {d : Char} {rest : List Char} {col₁ : Nat}
    (hd : d.isDigit = true)
    (hrest : ∀ c ∈ rest, c.isDigit = true ∨ c = '_') :
    numPfx d rest col₁ = (10, [d], rest, col₁) := by
  unfold numPfx
  by_cases h0 : d = '0'
  · rw [if_pos h0]
    cases rest with
    | nil => rfl
    | cons c rest₀ =>
      rcases hrest c (List.mem_cons_self c rest₀) with hc | hc
      · have hx : c ≠ 'x' := fun e => absurd (e ▸ hc) (by decide)
        have hX : c ≠ 'X' := fun e => absurd (e ▸ hc) (by decide)
        have hb : c ≠ 'b' := fun e => absurd (e ▸ hc) (by decide)
        have hB : c ≠ 'B' := fun e => absurd (e ▸ hc) (by decide)
        have ho : c ≠ 'o' := fun e => absurd (e ▸ hc) (by decide)
        have hO : c ≠ 'O' := fun e => absurd (e ▸ hc) (by decide)
        simp [hx, hX, hb, hB, ho, hO]
      · subst hc
        simp
  · rw [if_neg h0]

theorem lexNumLit_dec_ok {line : Nat} {d : Char} {rest : List Char}
    {col : Nat} (hd : d.isDigit = true)
    (hrest : ∀ c ∈ rest, c.isDigit = true ∨ c = '_')
    (hv : natOfDigits 10 ((d :: rest).filter (fun c => c ≠ '_')) ≤ 2 ^ 63 - 1) :
    lexNumLit line d (d :: rest) col =
      .ok (⟨.IntLit (natOfDigits 10 ((d :: rest).filter (fun c => c ≠ '_'))),
            ⟨⟨line, col + 1⟩, ⟨line, col + 1 + rest.length⟩⟩⟩, [],
        col + 1 + rest.length) := by
  have hval : ∀ c ∈ rest, isValidDigit c 10 = true ∨ c = '_' := by
    intro c hc
    rcases hrest c hc with h | h
    · exact Or.inl h
    · exact Or.inr h
  have hfil : (d :: rest).filter (fun c => c ≠ '_') =
      d :: rest.filter (fun c => c ≠ '_') := by
    rw [List.filter_cons, if_pos]
    simp only [decide_eq_true_eq]
    intro e
    exact absurd (e ▸ hd) (by decide)
  rw [hfil] at hv
  unfold lexNumLit
  dsimp only
  rw [List.tail_cons, numPfx_dec hd hrest]
  dsimp only
  rw [numLoop_digits hval]
  dsimp only
  rw [List.singleton_append, hfil]
  unfold i64FromStrRadix
  rw [if_pos hv]
  simp

theorem numPfx_hex {pc : Char} {ds : List Char} {col₁ : Nat}
    (h : pc = 'x' ∨ pc = 'X') :
    numPfx '0' (pc :: ds) col₁ = (16, [], ds, col₁ + 1) := by
  rcases h with rfl | rfl <;> rfl

theorem numPfx_bin {pc : Char} {ds : List Char} {col₁ : Nat}
    (h : pc = 'b' ∨ pc = 'B') :
    numPfx '0' (pc :: ds) col₁ = (2, [], ds, col₁ + 1) := by
  rcases h with rfl | rfl <;> rfl

theorem numPfx_oct {pc : Char} {ds : List Char} {col₁ : Nat}
    (h : pc = 'o' ∨ pc = 'O') :
    numPfx '0' (pc :: ds) col₁ = (8, [], ds, col₁ + 1) := by
  rcases h with rfl | rfl <;> rfl

theorem lexNumLit_radix_ok {line : Nat} {base : Nat} {pc : Char}
    {ds : List Char} {col : Nat}
    (hpfx : numPfx '0' (pc :: ds) (col + 1) = (base, [], ds, col + 1 + 1))
    (hds : ∀ c ∈ ds, isValidDigit c base = true) (hne : ds ≠ [])
    (hv : natOfDigits base ds ≤ 2 ^ 63 - 1) :
    lexNumLit line '0' ('0' :: pc :: ds) col =
      .ok (⟨.IntLit (natOfDigits base ds),
            ⟨⟨line, col + 1⟩, ⟨line, col + 1 + 1 + ds.length⟩⟩⟩, [],
        col + 1 + 1 + ds.length) := by
  have hfil : ds.filter (fun c => c ≠ '_') = ds :=
    List.filter_eq_self.mpr
      (fun c hc => by simpa using (isValidDigit_ne (hds c hc)).1)
  unfold lexNumLit
  dsimp only
  rw [List.tail_cons, hpfx]
  dsimp only
  rw [numLoop_digits (fun c hc => Or.inl (hds c hc))]
  dsimp only
  rw [List.nil_append, hfil]
  unfold i64FromStrRadix
  rw [if_neg hne, if_pos hv]
  rfl

theorem lineTokenize_nil {line col : Nat} :
    lineTokenize line [] col = .ok [] := by
  rw [lineTokenize.eq_def]

theorem lineTokenize_cons {line : Nat} {c : Char} {rest : List Char}
    {col : Nat} (hws : rustIsWhitespace c = false) :
    lineTokenize line (c :: rest) col =
      match dispatch line c (c :: rest) col with
      | .error e => .error e
      | .ok (none, _, _) => .ok []
      | .ok (some tok, rem₂, col₂) =>
        (lineTokenize line rem₂ col₂).map (tok :: ·) := by
  rw [lineTokenize.eq_def]
  dsimp only
  rw [hws]
  dsimp only
  split
  · rename_i e heq
    rw [heq]
  · rename_i fst snd heq
    rw [heq]
  · rename_i tok rem₂ col₂ heq
    rw [heq]
    cases hlt : lineTokenize line rem₂ col₂ <;> simp [Except.map, hlt]

theorem lineTokenize_ws {line : Nat} {c : Char} {rest : List Char}
    {col : Nat} (hws : rustIsWhitespace c = true) :
    lineTokenize line (c :: rest) col = lineTokenize line rest (col + 1) := by
  rw [lineTokenize.eq_def]
  dsimp only
  rw [hws]

theorem lineTokenize_skipWs {line : Nat} (rem : List Char) (col : Nat) :
    lineTokenize line rem col =
      lineTokenize line (skipWs rem col).1 (skipWs rem col).2 := by
  induction rem generalizing col with
  | nil => rfl
  | cons c rest ih =>
    by_cases hws : rustIsWhitespace c = true
    · rw [lineTokenize_ws hws, ih]
      simp [skipWs, hws]
    · simp only [Bool.not_eq_true] at hws
      simp [skipWs, hws]

theorem lineTokenize_cons_some {line : Nat} {c : Char} {rest : List Char}
    {col : Nat} {tok : Token} {rem₂ : List Char} {col₂ : Nat}
    (hws : rustIsWhitespace c = false)
    (hd : dispatch line c (c :: rest) col = .ok (some tok, rem₂, col₂)) :
    lineTokenize line (c :: rest) col =
      (lineTokenize line rem₂ col₂).map (tok :: ·) := by
  rw [lineTokenize_cons hws, hd]

theorem lineTokenize_cons_err {line : Nat} {c : Char} {rest : List Char}
    {col : Nat} {e : Error}
    (hws : rustIsWhitespace c = false)
    (hd : dispatch line c (c :: rest) col = .error e) :
    lineTokenize line (c :: rest) col = .error e := by
  rw [lineTokenize_cons hws, hd]

theorem lineTokenize_cons_none {line : Nat} {c : Char} {rest : List Char}
    {col : Nat} {rem₂ : List Char} {col₂ : Nat}
    (hws : rustIsWhitespace c = false)
    (hd : dispatch line c (c :: rest) col = .ok (none, rem₂, col₂)) :
    lineTokenize line (c :: rest) col = .ok [] := by
  rw [lineTokenize_cons hws, hd]

theorem charLitLoop_nil {line : Nat} {sp : Pos} {col : Nat}
    {acc : List Char} :
    charLitLoop line sp [] col acc =
      .error ⟨.UnterminatedCharOrStrLit, ⟨sp, ⟨line, col⟩⟩⟩ := by
  rw [charLitLoop.eq_def]

theorem charLitLoop_close {line : Nat} {sp : Pos} {rest : List Char}
    {col : Nat} {acc : List Char} :
    charLitLoop line sp ('\'' :: rest) col acc =
      match acc with
      | [] => .error ⟨.EmptyCharLit, ⟨sp, ⟨line, col + 1⟩⟩⟩
      | [ch] => .ok (⟨.CharLit ch, ⟨sp, ⟨line, col + 1⟩⟩⟩, rest, col + 1)
      | _ => .error ⟨.MultipleCharsInCharLit, ⟨sp, ⟨line, col + 1⟩⟩⟩ := by
  rw [charLitLoop.eq_def]
  dsimp only
  rw [if_pos rfl]

theorem charLitLoop_plain {line : Nat} {sp : Pos} {c : Char}
    {rest : List Char} {col : Nat} {acc : List Char}
    (h1 : c ≠ '\'') (h2 : c ≠ '\\') :
    charLitLoop line sp (c :: rest) col acc =
      charLitLoop line sp rest (col + 1) (acc ++ [c]) := by
  rw [charLitLoop.eq_def]
  dsimp only
  rw [if_neg h1, if_neg h2]

theorem charLitLoop_esc_ok {line : Nat} {sp : Pos} {rest : List Char}
    {col : Nat} {acc : List Char} {ch : Char} {rem' : List Char} {col' : Nat}
    (h : handleEscSeq line sp ('\\' :: rest) col = .ok (ch, rem', col')) :
    charLitLoop line sp ('\\' :: rest) col acc =
      charLitLoop line sp rem' col' (acc ++ [ch]) := by
  rw [charLitLoop.eq_def]
  dsimp only
  rw [if_neg (by decide), if_pos rfl]
  split
  · rename_i e heq
    rw [h] at heq
    exact Except.noConfusion heq
  · rename_i ch₀ rem₀ col₀ heq
    rw [h] at heq
    injection heq with e1
    injection e1 with e1a e2
    injection e2 with e2a e2b
    subst e1a
    subst e2a
    subst e2b
    rfl

theorem charLitLoop_esc_err {line : Nat} {sp : Pos} {rest : List Char}
    {col : Nat} {acc : List Char} {e : Error}
    (h : handleEscSeq line sp ('\\' :: rest) col = .error e) :
    charLitLoop line sp ('\\' :: rest) col acc = .error e := by
  rw [charLitLoop.eq_def]
  dsimp only
  rw [if_neg (by decide), if_pos rfl]
  split
  · rename_i e₀ heq
    rw [h] at heq
    injection heq with e1
    subst e1
    rfl
  · rename_i ch₀ rem₀ col₀ heq
    rw [h] at heq
    exact Except.noConfusion heq

theorem strLitLoop_nil {line : Nat} {sp : Pos} {col : Nat} {acc : String} :
    strLitLoop line sp [] col acc =
      .error ⟨.UnterminatedCharOrStrLit, ⟨sp, ⟨line, col⟩⟩⟩ := by
  rw [strLitLoop.eq_def]

theorem strLitLoop_close {line : Nat} {sp : Pos} {rest : List Char}
    {col : Nat} {acc : String} :
    strLitLoop line sp ('"' :: rest) col acc =
      .ok (⟨.StrLit acc, ⟨sp, ⟨line, col + 1⟩⟩⟩, rest, col + 1) := by
  rw [strLitLoop.eq_def]
  dsimp only
  rw [if_pos rfl]

theorem strLitLoop_plain {line : Nat} {sp : Pos} {c : Char}
    {rest : List Char} {col : Nat} {acc : String}
    (h1 : c ≠ '"') (h2 : c ≠ '\\') :
    strLitLoop line sp (c :: rest) col acc =
      strLitLoop line sp rest (col + 1) (acc.push c) := by
  rw [strLitLoop.eq_def]
  dsimp only
  rw [if_neg h1, if_neg h2]

theorem strLitLoop_esc_ok {line : Nat} {sp : Pos} {rest : List Char}
    {col : Nat} {acc : String} {ch : Char} {rem' : List Char} {col' : Nat}
    (h : handleEscSeq line sp ('\\' :: rest) col = .ok (ch, rem', col')) :
    strLitLoop line sp ('\\' :: rest) col acc =
      strLitLoop line sp rem' col' (acc.push ch) := by
  rw [strLitLoop.eq_def]
  dsimp only
  rw [if_neg (by decide), if_pos rfl]
  split
  · rename_i e heq
    rw [h] at heq
    exact Except.noConfusion heq
  · rename_i ch₀ rem₀ col₀ heq
    rw [h] at heq
    injection heq with e1
    injection e1 with e1a e2
    injection e2 with e2a e2b
    subst e1a
    subst e2a
    subst e2b
    rfl

theorem strLitLoop_esc_err {line : Nat} {sp : Pos} {rest : List Char}
    {col : Nat} {acc : String} {e : Error}
    (h : handleEscSeq line sp ('\\' :: rest) col = .error e) :
    strLitLoop line sp ('\\' :: rest) col acc = .error e := by
  rw [strLitLoop.eq_def]
  dsimp only
  rw [if_neg (by decide), if_pos rfl]
  split
  · rename_i e₀ heq
    rw [h] at heq
    injection heq with e1
    subst e1
    rfl
  · rename_i ch₀ rem₀ col₀ heq
    rw [h] at heq
    exact Except.noConfusion heq

theorem isValidDigit_newline (b : Nat) : isValidDigit '\n' b = false := by
  unfold isValidDigit
  split
  · decide
  · decide
  · decide
  · decide
  · rfl

theorem symLoop_stop {c : Char} {rest : List Char} {col : Nat} {acc : String}
    (h : symChar c = false) :
    symLoop (c :: rest) col acc = (acc, c :: rest, col) := by
  simp [symLoop, h]

theorem lexHyphen_sym {line : Nat} {rem : List Char} {col : Nat}
    (h : rem.tail.head? ≠ some '-') :
    lexHyphen line rem col = some (lexSym line '-' rem col) := by
  unfold lexHyphen
  split
  · rename_i heq
    exact absurd heq h
  · rfl

theorem dispatch_hyphen_sym {line : Nat} {rem : List Char} {col : Nat}
    (h : rem.tail.head? ≠ some '-') :
    dispatch line '-' rem col = pureTok (lexSym line '-' rem col) := by
  unfold dispatch
  rw [show classify '-' = .hyphen from rfl]
  dsimp only
  rw [lexHyphen_sym h]

theorem lexSym_first_stop {line : Nat} {la c : Char} {rest : List Char}
    {col : Nat} (h : symChar c = false) :
    lexSym line la (la :: c :: rest) col =
      (⟨.Name (String.singleton la), ⟨⟨line, col + 1⟩, ⟨line, col + 1⟩⟩⟩,
        c :: rest, col + 1) := by
  unfold lexSym
  dsimp only
  rw [List.tail_cons, symLoop_stop h]

theorem lexNumLit_single_digit {line : Nat} {d : Char} {col : Nat}
    (hd : d.isDigit = true) :
    lexNumLit line d [d] col =
      .ok (⟨.IntLit (digitToNat d), ⟨⟨line, col + 1⟩, ⟨line, col + 1⟩⟩⟩,
        [], col + 1) := by
  have hdu : d ≠ '_' := fun e => absurd (e ▸ hd) (by decide)
  have hfil : [d].filter (fun c => c ≠ '_') = [d] := by simp [hdu]
  have hb := isDigit_toNat hd
  have hone : natOfDigits 10 [d] = digitToNat d := by simp [natOfDigits]
  have hv : natOfDigits 10 ([d].filter (fun c => c ≠ '_')) ≤ 2 ^ 63 - 1 := by
    rw [hfil, hone]
    unfold digitToNat
    rw [if_pos (by omega)]
    omega
  have h := @lexNumLit_dec_ok line d [] col hd
    (fun c hc => absurd hc (List.not_mem_nil c)) hv
  rw [hfil, hone] at h
  simpa using h

theorem hexLoop_run {line : Nat} {es ls : Pos} {hs rest : List Char}
    {col : Nat} {acc : List Char}
    (h : ∀ x ∈ hs, isAsciiHexDigit x = true) :
    hexLoop line es ls (hs ++ '\x7d' :: rest) col acc =
      .ok (acc ++ hs, rest, col + hs.length + 1) := by
  induction hs generalizing col acc with
  | nil => simp [hexLoop]
  | cons x xs ih =>
    have hx := h x (List.mem_cons_self x xs)
    have hxs : ∀ y ∈ xs, isAsciiHexDigit y = true :=
      fun y hy => h y (List.mem_cons_of_mem x hy)
    have hnb : x ≠ '\x7d' := fun e => absurd (e ▸ hx) (by decide)
    rw [List.cons_append, hexLoop, if_neg hnb, if_pos hx, ih hxs]
    simp only [List.append_assoc, List.singleton_append, List.length_cons]
    have harith : col + 1 + xs.length + 1 = col + (xs.length + 1) + 1 := by
      omega
    rw [harith]

theorem handleEscSeq_unicode {line : Nat} {ls : Pos} {hs rest : List Char}
    {col n : Nat} {c : Char}
    (hhex : ∀ x ∈ hs, isAsciiHexDigit x = true)
    (hn : u32FromStrRadix hs = some n) (hc : charFromU32 n = some c) :
    handleEscSeq line ls ('\\' :: 'u' :: '\x7b' :: (hs ++ '\x7d' :: rest))
      col = .ok (c, rest, col + hs.length + 4) := by
  unfold handleEscSeq
  dsimp only
  rw [List.tail_cons]
  dsimp only
  rw [if_neg (by decide), if_neg (by decide), if_neg (by decide),
    if_neg (by decide), if_neg (by decide), if_neg (by decide),
    if_neg (by decide), if_pos rfl]
  split
  · rename_i rem₃ heq
    injection heq with e1 e2
    subst e2
    rw [hexLoop_run hhex]
    dsimp only
    rw [List.nil_append, hn]
    dsimp only
    rw [hc]
    dsimp only
    have harith : col + 1 + 2 + hs.length + 1 = col + hs.length + 4 := by
      omega
    rw [harith]
  · rename_i hctr
    exact (hctr (hs ++ '\x7d' :: rest) rfl).elim

theorem tokenize_strlit_single_esc {c ch : Char} (hc : c ≠ '\n')
    (h : handleEscSeq 1 ⟨1, 1⟩ ['\\', c, '"'] 1 = .ok (ch, ['"'], 3)) :
    tokenize (String.mk ['"', '\\', c, '"']) =
      .ok [⟨.StrLit (String.mk [ch]), ⟨⟨1, 1⟩, ⟨1, 4⟩⟩⟩] := by
  have hnl : '\n' ∉ ['"', '\\', c, '"'] := by
    simp only [List.mem_cons, List.not_mem_nil, or_false]
    rintro (e | e | e | e)
    · exact absurd e (by decide)
    · exact absurd e (by decide)
    · exact hc e.symm
    · exact absurd e (by decide)
  have e1 : dispatch 1 '"' ['"', '\\', c, '"'] 0 =
      .ok (some ⟨.StrLit (String.mk [ch]), ⟨⟨1, 1⟩, ⟨1, 4⟩⟩⟩, [], 4) := by
    show tokOk (strLitLoop 1 ⟨1, 1⟩ ['\\', c, '"'] 1 ("")) = _
    rw [strLitLoop_esc_ok h, strLitLoop_close]
    rfl
  rw [tokenize_single hnl (List.cons_ne_nil _ _),
    lineTokenize_cons_some (by decide) e1, lineTokenize_nil]
  rfl

/-- C6: a digit invalid for the active base ends the numeric literal
without error and is left for the next dispatch: "0b102" yields the
integer literal 2 (the binary digits "10") and then the base-10 integer
literal 2, with no error. -/
theorem C6_invalid_base_digit_splits :
    tokenize ("0b102") =
      .ok [⟨.IntLit 2, ⟨⟨1, 1⟩, ⟨1, 4⟩⟩⟩, ⟨.IntLit 2, ⟨⟨1, 5⟩, ⟨1, 5⟩⟩⟩] := by
  have e1 : dispatch 1 '0' ['0', 'b', '1', '0', '2'] 0 =
      .ok (some ⟨.IntLit 2, ⟨⟨1, 1⟩, ⟨1, 4⟩⟩⟩, ['2'], 4) := by decide
  have e2 : dispatch 1 '2' ['2'] 4 =
      .ok (some ⟨.IntLit 2, ⟨⟨1, 5⟩, ⟨1, 5⟩⟩⟩, [], 5) := by decide
  rw [show ("0b102" : String) = String.mk ['0', 'b', '1', '0', '2'] from rfl,
    tokenize_single (by decide) (by decide),
    lineTokenize_cons_some (by decide) e1,
    lineTokenize_cons_some (by decide) e2, lineTokenize_nil]
  rfl

/-- C10: a base-10 literal with a single trailing decimal point and no
fractional digits tokenizes as a float literal of value 1; the trailing
point does not produce InvalidNumLitFormat. -/
theorem C10_trailing_point_float :
    tokenize ("1.") = .ok [⟨.FloatLit 1, ⟨⟨1, 1⟩, ⟨1, 2⟩⟩⟩] := by
  have e1 : dispatch 1 '1' ['1', '.'] 0 =
      .ok (some ⟨.FloatLit 1, ⟨⟨1, 1⟩, ⟨1, 2⟩⟩⟩, [], 2) := by decide
  rw [show ("1." : String) = String.mk ['1', '.'] from rfl,
    tokenize_single (by decide) (by decide),
    lineTokenize_cons_some (by decide) e1, lineTokenize_nil]
  rfl

/-- C1: character literals are validated count-on-close: an immediately
closed literal is the EmptyCharLit error, two decoded characters before
the closing quote are the MultipleCharsInCharLit error, a line ending
before a closing quote is the UnterminatedCharOrStrLit error, and exactly
one plain character between the quotes yields a CharLit token holding
that character. -/
theorem C1_char_lit_count_on_close :
    tokenize (String.mk ['\'', '\'']) =
      .error ⟨.EmptyCharLit, ⟨⟨1, 1⟩, ⟨1, 2⟩⟩⟩ ∧
    tokenize (String.mk ['\'', 'a', 'b', '\'']) =
      .error ⟨.MultipleCharsInCharLit, ⟨⟨1, 1⟩, ⟨1, 4⟩⟩⟩ ∧
    tokenize (String.mk ['\'', 'a']) =
      .error ⟨.UnterminatedCharOrStrLit, ⟨⟨1, 1⟩, ⟨1, 2⟩⟩⟩ ∧
    ∀ c : Char, c ≠ '\'' → c ≠ '\\' → c ≠ '\n' →
      tokenize (String.mk ['\'', c, '\'']) =
        .ok [⟨.CharLit c, ⟨⟨1, 1⟩, ⟨1, 3⟩⟩⟩] := by
  refine ⟨?_, ?_, ?_, ?_⟩
  · have e1 : dispatch 1 '\'' ['\'', '\''] 0 =
        .error ⟨.EmptyCharLit, ⟨⟨1, 1⟩, ⟨1, 2⟩⟩⟩ := by
      show tokOk (charLitLoop 1 ⟨1, 1⟩ ['\''] 1 []) = _
      rw [charLitLoop_close]
      rfl
    rw [tokenize_single (by decide) (by decide),
      lineTokenize_cons_err (by decide) e1]
  · have e1 : dispatch 1 '\'' ['\'', 'a', 'b', '\''] 0 =
        .error ⟨.MultipleCharsInCharLit, ⟨⟨1, 1⟩, ⟨1, 4⟩⟩⟩ := by
      show tokOk (charLitLoop 1 ⟨1, 1⟩ ['a', 'b', '\''] 1 []) = _
      rw [charLitLoop_plain (by decide) (by decide),
        charLitLoop_plain (by decide) (by decide), charLitLoop_close]
      rfl
    rw [tokenize_single (by decide) (by decide),
      lineTokenize_cons_err (by decide) e1]
  · have e1 : dispatch 1 '\'' ['\'', 'a'] 0 =
        .error ⟨.UnterminatedCharOrStrLit, ⟨⟨1, 1⟩, ⟨1, 2⟩⟩⟩ := by
      show tokOk (charLitLoop 1 ⟨1, 1⟩ ['a'] 1 []) = _
      rw [charLitLoop_plain (by decide) (by decide), charLitLoop_nil]
      rfl
    rw [tokenize_single (by decide) (by decide),
      lineTokenize_cons_err (by decide) e1]
  · intro c h1 h2 h3
    have hnl : '\n' ∉ ['\'', c, '\''] := by
      simp only [List.mem_cons, List.not_mem_nil, or_false]
      rintro (e | e | e)
      · exact absurd e (by decide)
      · exact h3 e.symm
      · exact absurd e (by decide)
    have e1 : dispatch 1 '\'' ['\'', c, '\''] 0 =
        .ok (some ⟨.CharLit c, ⟨⟨1, 1⟩, ⟨1, 3⟩⟩⟩, [], 3) := by
      show tokOk (charLitLoop 1 ⟨1, 1⟩ [c, '\''] 1 []) = _
      rw [charLitLoop_plain h1 h2, charLitLoop_close]
      rfl
    rw [tokenize_single hnl (List.cons_ne_nil _ _),
      lineTokenize_cons_some (by decide) e1, lineTokenize_nil]
    rfl

theorem C1_char_lit_count_on_close_witness :
    tokenize (String.mk ['\'', 'q', '\'']) =
      .ok [⟨.CharLit 'q', ⟨⟨1, 1⟩, ⟨1, 3⟩⟩⟩] :=
  C1_char_lit_count_on_close.2.2.2 'q' (by decide) (by decide) (by decide)

/-- C7: on the three-character input quote-backslash-u, where the line
ends in the middle of an escape sequence, the lexer does not report
UnterminatedCharOrStrLit from the literal's opening position: it takes
the advance-and-report branch meant for a lookahead that is not an
opening brace, and returns UnknownEscapeSeq with a span from the
backslash at column 2 to column 4 — one column past the end of the
3-character line. -/
theorem C7_eol_mid_escape_unknown :
    tokenize (String.mk ['\'', '\\', 'u']) =
      .error ⟨.UnknownEscapeSeq, ⟨⟨1, 2⟩, ⟨1, 4⟩⟩⟩ := by
  have hesc : handleEscSeq 1 ⟨1, 1⟩ ['\\', 'u'] 1 =
      .error ⟨.UnknownEscapeSeq, ⟨⟨1, 2⟩, ⟨1, 4⟩⟩⟩ := by decide
  have e1 : dispatch 1 '\'' ['\'', '\\', 'u'] 0 =
      .error ⟨.UnknownEscapeSeq, ⟨⟨1, 2⟩, ⟨1, 4⟩⟩⟩ := by
    show tokOk (charLitLoop 1 ⟨1, 1⟩ ['\\', 'u'] 1 []) = _
    rw [charLitLoop_esc_err hesc]
    rfl
  rw [tokenize_single (by decide) (by decide),
    lineTokenize_cons_err (by decide) e1]

/-- C2 counterexample: the second decimal point IS consumed. On "1.2."
the literal's span ends at column 4, covering the second point, and no
further token follows it (were the point left unconsumed, it would lex
as the symbolic name "." after the literal). -/
theorem C2_second_point_consumed_cex :
    tokenize ("1.2.") =
      .ok [⟨.FloatLit (mkRat 12 10), ⟨⟨1, 1⟩, ⟨1, 4⟩⟩⟩] := by
  have e1 : dispatch 1 '1' ['1', '.', '2', '.'] 0 =
      .ok (some ⟨.FloatLit (mkRat 12 10), ⟨⟨1, 1⟩, ⟨1, 4⟩⟩⟩, [], 4) := by
    decide
  rw [show ("1.2." : String) = String.mk ['1', '.', '2', '.'] from rfl,
    tokenize_single (by decide) (by decide),
    lineTokenize_cons_some (by decide) e1, lineTokenize_nil]
  rfl

/-- C2 (amended): in a base-10 literal a decimal point is permitted only
once; a second point ends the literal and is consumed (advanced past),
so the literal's span covers it, while a following digit still starts a
separate literal: the two numeric literals are not merged into one
token. -/
theorem C2_second_point_ends_literal :
    ∀ d : Char, d.isDigit = true →
      tokenize (String.mk ['1', '.', '2', '.', d]) =
        .ok [⟨.FloatLit (mkRat 12 10), ⟨⟨1, 1⟩, ⟨1, 4⟩⟩⟩,
          ⟨.IntLit (digitToNat d), ⟨⟨1, 5⟩, ⟨1, 5⟩⟩⟩] := by
  intro d hd
  have hnl : '\n' ∉ ['1', '.', '2', '.', d] := by
    simp only [List.mem_cons, List.not_mem_nil, or_false]
    rintro (e | e | e | e | e)
    · exact absurd e (by decide)
    · exact absurd e (by decide)
    · exact absurd e (by decide)
    · exact absurd e (by decide)
    · rw [← e] at hd
      exact absurd hd (by decide)
  have e1 : dispatch 1 '1' ['1', '.', '2', '.', d] 0 =
      .ok (some ⟨.FloatLit (mkRat 12 10), ⟨⟨1, 1⟩, ⟨1, 4⟩⟩⟩, [d], 4) := rfl
  have e2 : dispatch 1 d [d] 4 =
      .ok (some ⟨.IntLit (digitToNat d), ⟨⟨1, 5⟩, ⟨1, 5⟩⟩⟩, [], 5) := by
    rw [dispatch_digit hd, lexNumLit_single_digit hd]
    rfl
  rw [tokenize_single hnl (List.cons_ne_nil _ _),
    lineTokenize_cons_some (by decide) e1,
    lineTokenize_cons_some (digit_not_ws hd) e2, lineTokenize_nil]
  rfl

theorem C2_second_point_ends_literal_witness :
    tokenize (String.mk ['1', '.', '2', '.', '3']) =
      .ok [⟨.FloatLit (mkRat 12 10), ⟨⟨1, 1⟩, ⟨1, 4⟩⟩⟩,
        ⟨.IntLit (digitToNat '3'), ⟨⟨1, 5⟩, ⟨1, 5⟩⟩⟩] :=
  C2_second_point_ends_literal '3' (by decide)

/-- C3 counterexample: line terminators are NOT emitted as tokens. The
input "a\nb" contains a line feed, yet tokenizing it yields exactly the
two Name tokens for a and b — the terminator is discarded by the line
split, and no token of any kind stands for it. -/
theorem C3_terminator_no_token_cex :
    tokenize (String.mk ['a', '\n', 'b']) =
      .ok [⟨.Name ("a"), ⟨⟨1, 1⟩, ⟨1, 1⟩⟩⟩,
        ⟨.Name ("b"), ⟨⟨2, 1⟩, ⟨2, 1⟩⟩⟩] := by
  have l1 : lineTokenize 1 ['a'] 0 = .ok [⟨.Name ("a"), ⟨⟨1, 1⟩, ⟨1, 1⟩⟩⟩] := by
    rw [lineTokenize_cons_some (by decide)
      (by decide : dispatch 1 'a' ['a'] 0 =
        .ok (some ⟨.Name ("a"), ⟨⟨1, 1⟩, ⟨1, 1⟩⟩⟩, [], 1)),
      lineTokenize_nil]
    rfl
  have l2 : lineTokenize 2 ['b'] 0 = .ok [⟨.Name ("b"), ⟨⟨2, 1⟩, ⟨2, 1⟩⟩⟩] := by
    rw [lineTokenize_cons_some (by decide)
      (by decide : dispatch 2 'b' ['b'] 0 =
        .ok (some ⟨.Name ("b"), ⟨⟨2, 1⟩, ⟨2, 1⟩⟩⟩, [], 1)),
      lineTokenize_nil]
    rfl
  show tokenizeLines (rustLines (String.mk ['a', '\n', 'b']).data) 1 = _
  rw [show rustLines (String.mk ['a', '\n', 'b']).data = [['a'], ['b']]
    from rfl]
  simp only [tokenizeLines, l1, l2]
  rfl

/-- C3 (amended): line terminators are line separators, not tokens: the
source is split at each line feed, the terminator itself is discarded,
and a line comment consumes only to the end of its physical line, so
lexing resumes with the next line's content (on its own line number)
rather than with a terminator token. -/
theorem C3_comment_to_eol_amended :
    tokenize (String.mk
        ['f', 'o', 'o', ' ', '-', '-', ' ', 'c', '\n', 'b', 'a', 'r']) =
      .ok [⟨.Name ("foo"), ⟨⟨1, 1⟩, ⟨1, 3⟩⟩⟩,
        ⟨.Name ("bar"), ⟨⟨2, 1⟩, ⟨2, 3⟩⟩⟩] := by
  have l1 : lineTokenize 1 ['f', 'o', 'o', ' ', '-', '-', ' ', 'c'] 0 =
      .ok [⟨.Name ("foo"), ⟨⟨1, 1⟩, ⟨1, 3⟩⟩⟩] := by
    rw [lineTokenize_cons_some (by decide)
      (by decide : dispatch 1 'f' ['f', 'o', 'o', ' ', '-', '-', ' ', 'c'] 0 =
        .ok (some ⟨.Name ("foo"), ⟨⟨1, 1⟩, ⟨1, 3⟩⟩⟩,
          [' ', '-', '-', ' ', 'c'], 3)),
      lineTokenize_ws (by decide),
      lineTokenize_cons_none (by decide)
      (by decide : dispatch 1 '-' ['-', '-', ' ', 'c'] 4 = .ok (none, [], 8))]
    rfl
  have l2 : lineTokenize 2 ['b', 'a', 'r'] 0 =
      .ok [⟨.Name ("bar"), ⟨⟨2, 1⟩, ⟨2, 3⟩⟩⟩] := by
    rw [lineTokenize_cons_some (by decide)
      (by decide : dispatch 2 'b' ['b', 'a', 'r'] 0 =
        .ok (some ⟨.Name ("bar"), ⟨⟨2, 1⟩, ⟨2, 3⟩⟩⟩, [], 3)),
      lineTokenize_nil]
    rfl
  show tokenizeLines (rustLines (String.mk
    ['f', 'o', 'o', ' ', '-', '-', ' ', 'c', '\n', 'b', 'a', 'r']).data) 1 = _
  rw [show rustLines (String.mk
      ['f', 'o', 'o', ' ', '-', '-', ' ', 'c', '\n', 'b', 'a', 'r']).data =
    [['f', 'o', 'o', ' ', '-', '-', ' ', 'c'], ['b', 'a', 'r']] from rfl]
  simp only [tokenizeLines, l1, l2]
  rfl

/-- The ordering predicate exactly as the spec sentence for C4 words it:
each token's span start is non-decreasing in BOTH the line and the column
coordinate relative to the previous token's span end. (The code's actual
invariant is lexicographic: across a line break the column resets, see
tokensChainFrom.) -/
def specCoordMono : List Token → Bool
  | [] => true
  | [_] => true
  | t :: t' :: ts =>
    decide (t.span.stop.line ≤ t'.span.start.line) &&
    decide (t.span.stop.col ≤ t'.span.start.col) &&
    specCoordMono (t' :: ts)

/-- C4 counterexample: on the two-line input "foo\nx" the second token
starts at column 1 while the first ends at column 3, so the column
coordinate DECREASES across the line break: the spec's
both-coordinates-non-decreasing ordering is violated by a successful
tokenization. -/
theorem C4_coord_mono_cex :
    tokenize (String.mk ['f', 'o', 'o', '\n', 'x']) =
      .ok [⟨.Name ("foo"), ⟨⟨1, 1⟩, ⟨1, 3⟩⟩⟩,
        ⟨.Name ("x"), ⟨⟨2, 1⟩, ⟨2, 1⟩⟩⟩] ∧
    specCoordMono [⟨.Name ("foo"), ⟨⟨1, 1⟩, ⟨1, 3⟩⟩⟩,
      ⟨.Name ("x"), ⟨⟨2, 1⟩, ⟨2, 1⟩⟩⟩] = false := by
  constructor
  · have l1 : lineTokenize 1 ['f', 'o', 'o'] 0 =
        .ok [⟨.Name ("foo"), ⟨⟨1, 1⟩, ⟨1, 3⟩⟩⟩] := by
      rw [lineTokenize_cons_some (by decide)
        (by decide : dispatch 1 'f' ['f', 'o', 'o'] 0 =
          .ok (some ⟨.Name ("foo"), ⟨⟨1, 1⟩, ⟨1, 3⟩⟩⟩, [], 3)),
        lineTokenize_nil]
      rfl
    have l2 : lineTokenize 2 ['x'] 0 =
        .ok [⟨.Name ("x"), ⟨⟨2, 1⟩, ⟨2, 1⟩⟩⟩] := by
      rw [lineTokenize_cons_some (by decide)
        (by decide : dispatch 2 'x' ['x'] 0 =
          .ok (some ⟨.Name ("x"), ⟨⟨2, 1⟩, ⟨2, 1⟩⟩⟩, [], 1)),
        lineTokenize_nil]
      rfl
    show tokenizeLines (rustLines (String.mk ['f', 'o', 'o', '\n', 'x']).data)
      1 = _
    rw [show rustLines (String.mk ['f', 'o', 'o', '\n', 'x']).data =
      [['f', 'o', 'o'], ['x']] from rfl]
    simp only [tokenizeLines, l1, l2]
    rfl
  · decide

/-- C4 (amended): for every input that tokenizes successfully the spans
are strictly increasing in lexicographic position order — each span
starts strictly after the previous span's end and each span's start is
at most its end, so spans never overlap. Across a line break the line
number increases while the column restarts from 1, so the column
coordinate alone is not monotone. -/
theorem C4_spans_chain {src : String} {toks : List Token}
    (h : tokenize src = .ok toks) : tokensChainFrom ⟨1, 0⟩ toks = true :=
  tokenize_chain h

theorem C4_spans_chain_witness :
    tokensChainFrom ⟨1, 0⟩ [⟨.Name ("y"), ⟨⟨1, 1⟩, ⟨1, 1⟩⟩⟩] = true :=
  C4_spans_chain (show tokenize (String.mk ['y']) =
      .ok [⟨.Name ("y"), ⟨⟨1, 1⟩, ⟨1, 1⟩⟩⟩] by
    rw [tokenize_single (by decide) (by decide),
      lineTokenize_cons_some (by decide)
      (by decide : dispatch 1 'y' ['y'] 0 =
        .ok (some ⟨.Name ("y"), ⟨⟨1, 1⟩, ⟨1, 1⟩⟩⟩, [], 1)),
      lineTokenize_nil]
    rfl)

/-- C5: numeric literal values are exact. A decimal digit run with
underscores yields the integer literal whose value is the digit string
with underscores removed, parsed in base 10; a base-prefixed literal
('0x'/'0X' base 16, '0b'/'0B' base 2, '0o'/'0O' base 8) whose digits are
valid for the base and fit in i64 yields the digits' value in that base;
and "0x" with no digits after the prefix is the InvalidNumLitFormat
error. -/
theorem C5_numeric_values :
    (∀ (d : Char) (rest : List Char), d.isDigit = true →
      (∀ c ∈ rest, c.isDigit = true ∨ c = '_') →
      natOfDigits 10 ((d :: rest).filter (fun c => c ≠ '_')) ≤ 2 ^ 63 - 1 →
      tokenize (String.mk (d :: rest)) =
        .ok [⟨.IntLit (natOfDigits 10 ((d :: rest).filter (fun c => c ≠ '_'))),
          ⟨⟨1, 1⟩, ⟨1, 1 + rest.length⟩⟩⟩]) ∧
    (∀ (base : Nat) (pc : Char) (ds : List Char),
      (((pc = 'x' ∨ pc = 'X') ∧ base = 16) ∨
        ((pc = 'b' ∨ pc = 'B') ∧ base = 2) ∨
        ((pc = 'o' ∨ pc = 'O') ∧ base = 8)) →
      (∀ c ∈ ds, isValidDigit c base = true) → ds ≠ [] →
      natOfDigits base ds ≤ 2 ^ 63 - 1 →
      tokenize (String.mk ('0' :: pc :: ds)) =
        .ok [⟨.IntLit (natOfDigits base ds),
          ⟨⟨1, 1⟩, ⟨1, 2 + ds.length⟩⟩⟩]) ∧
    tokenize ("0x") = .error ⟨.InvalidNumLitFormat, ⟨⟨1, 1⟩, ⟨1, 2⟩⟩⟩ := by
  refine ⟨?_, ?_, ?_⟩
  · intro d rest hd hrest hv
    have hnl : '\n' ∉ d :: rest := by
      intro hm
      rcases List.mem_cons.mp hm with e | hm
      · rw [← e] at hd
        exact absurd hd (by decide)
      · rcases hrest _ hm with hc | hc
        · exact absurd hc (by decide)
        · exact absurd hc (by decide)
    have e1 : dispatch 1 d (d :: rest) 0 =
        .ok (some ⟨.IntLit (natOfDigits 10
            ((d :: rest).filter (fun c => c ≠ '_'))),
          ⟨⟨1, 1⟩, ⟨1, 1 + rest.length⟩⟩⟩, [], 1 + rest.length) := by
      rw [dispatch_digit hd, lexNumLit_dec_ok hd hrest hv]
      rfl
    rw [tokenize_single hnl (List.cons_ne_nil _ _),
      lineTokenize_cons_some (digit_not_ws hd) e1, lineTokenize_nil]
    rfl
  · intro base pc ds hbase hds hne hv
    have hpfx : numPfx '0' (pc :: ds) (0 + 1) = (base, [], ds, 0 + 1 + 1) := by
      rcases hbase with ⟨hpc, rfl⟩ | ⟨hpc, rfl⟩ | ⟨hpc, rfl⟩
      · exact numPfx_hex hpc
      · exact numPfx_bin hpc
      · exact numPfx_oct hpc
    have hpc_ne : pc ≠ '\n' := by
      rcases hbase with ⟨hpc, _⟩ | ⟨hpc, _⟩ | ⟨hpc, _⟩ <;>
        rcases hpc with rfl | rfl <;> decide
    have hnl : '\n' ∉ '0' :: pc :: ds := by
      intro hm
      rcases List.mem_cons.mp hm with e | hm
      · exact absurd e (by decide)
      rcases List.mem_cons.mp hm with e | hm
      · exact hpc_ne e.symm
      · have hdig := hds _ hm
        rw [isValidDigit_newline] at hdig
        exact Bool.noConfusion hdig
    have e1 : dispatch 1 '0' ('0' :: pc :: ds) 0 =
        .ok (some ⟨.IntLit (natOfDigits base ds),
          ⟨⟨1, 1⟩, ⟨1, 2 + ds.length⟩⟩⟩, [], 2 + ds.length) := by
      rw [dispatch_digit (by decide), lexNumLit_radix_ok hpfx hds hne hv]
      rfl
    rw [tokenize_single hnl (List.cons_ne_nil _ _),
      lineTokenize_cons_some (by decide) e1, lineTokenize_nil]
    rfl
  · have e1 : dispatch 1 '0' ['0', 'x'] 0 =
        .error ⟨.InvalidNumLitFormat, ⟨⟨1, 1⟩, ⟨1, 2⟩⟩⟩ := by decide
    rw [show ("0x" : String) = String.mk ['0', 'x'] from rfl,
      tokenize_single (by decide) (by decide),
      lineTokenize_cons_err (by decide) e1]

theorem C5_numeric_values_witness :
    tokenize (String.mk ['1', '_', '0', '0', '0']) =
      .ok [⟨.IntLit (natOfDigits 10
          (['1', '_', '0', '0', '0'].filter (fun c => c ≠ '_'))),
        ⟨⟨1, 1⟩, ⟨1, 5⟩⟩⟩] ∧
    tokenize (String.mk ['0', 'x', 'F', 'F']) =
      .ok [⟨.IntLit (natOfDigits 16 ['F', 'F']), ⟨⟨1, 1⟩, ⟨1, 4⟩⟩⟩] :=
  ⟨C5_numeric_values.1 '1' ['_', '0', '0', '0'] (by decide) (by decide)
    (by decide),
   C5_numeric_values.2.1 16 'x' ['F', 'F'] (Or.inl ⟨Or.inl rfl, rfl⟩)
    (by decide) (by decide) (by decide)⟩

/-- C8: escape round-trip. Each simple escape letter decodes to its
table character (n, r, t, backslash, 0, the two quotes), and the unicode
escape u-brace-hex-brace decodes to the scalar value's character: a
string literal holding exactly that escape yields a StrLit token whose
content is the one decoded character. -/
theorem C8_escape_round_trip :
    (∀ p ∈ ([('n', '\n'), ('r', '\r'), ('t', '\t'), ('\\', '\\'),
        ('0', '\x00'), ('\'', '\''), ('"', '"')] : List (Char × Char)),
      tokenize (String.mk ['"', '\\', p.1, '"']) =
        .ok [⟨.StrLit (String.mk [p.2]), ⟨⟨1, 1⟩, ⟨1, 4⟩⟩⟩]) ∧
    (∀ (hs : List Char) (n : Nat) (c : Char),
      (∀ x ∈ hs, isAsciiHexDigit x = true) →
      u32FromStrRadix hs = some n → charFromU32 n = some c →
      tokenize (String.mk (['"', '\\', 'u', '\x7b'] ++ hs ++ ['\x7d', '"'])) =
        .ok [⟨.StrLit (String.mk [c]), ⟨⟨1, 1⟩, ⟨1, hs.length + 6⟩⟩⟩]) := by
  constructor
  · intro p hp
    simp only [List.mem_cons, List.not_mem_nil, or_false] at hp
    rcases hp with rfl | rfl | rfl | rfl | rfl | rfl | rfl
    all_goals exact tokenize_strlit_single_esc (by decide) (by decide)
  · intro hs n c hhex hn hc
    have hnl : '\n' ∉ ['"', '\\', 'u', '\x7b'] ++ hs ++ ['\x7d', '"'] := by
      intro hm
      rcases List.mem_append.mp hm with hm | hm
      · rcases List.mem_append.mp hm with hm | hm
        · revert hm
          decide
        · exact absurd (hhex _ hm) (by decide)
      · revert hm
        decide
    have hne : ['"', '\\', 'u', '\x7b'] ++ hs ++ ['\x7d', '"'] ≠ [] := by
      simp
    have hesc := @handleEscSeq_unicode 1 ⟨1, 1⟩ hs ['"'] 1 n c hhex hn hc
    have hL : ['"', '\\', 'u', '\x7b'] ++ hs ++ ['\x7d', '"'] =
        '"' :: '\\' :: 'u' :: '\x7b' :: (hs ++ ['\x7d', '"']) := by simp
    rw [hL] at hnl hne ⊢
    have e1 : dispatch 1 '"'
        ('"' :: '\\' :: 'u' :: '\x7b' :: (hs ++ ['\x7d', '"'])) 0 =
        .ok (some ⟨.StrLit (String.mk [c]),
          ⟨⟨1, 1⟩, ⟨1, hs.length + 6⟩⟩⟩, [], hs.length + 6) := by
      show tokOk (strLitLoop 1 ⟨1, 1⟩
        ('\\' :: 'u' :: '\x7b' :: (hs ++ '\x7d' :: ['"'])) 1 ("")) = _
      rw [strLitLoop_esc_ok hesc, strLitLoop_close]
      have harith : 1 + hs.length + 4 + 1 = hs.length + 6 := by omega
      rw [harith]
      rfl
    rw [tokenize_single hnl hne, lineTokenize_cons_some (by decide) e1,
      lineTokenize_nil]
    rfl

theorem C8_escape_round_trip_witness :
    tokenize (String.mk ['"', '\\', 'n', '"']) =
      .ok [⟨.StrLit (String.mk ['\n']), ⟨⟨1, 1⟩, ⟨1, 4⟩⟩⟩] ∧
    tokenize (String.mk (['"', '\\', 'u', '\x7b'] ++ ['4', '1'] ++
        ['\x7d', '"'])) =
      .ok [⟨.StrLit (String.mk ['A']),
        ⟨⟨1, 1⟩, ⟨1, ['4', '1'].length + 6⟩⟩⟩] :=
  ⟨C8_escape_round_trip.1 ('n', '\n') (List.mem_cons_self _ _),
   C8_escape_round_trip.2 ['4', '1'] 65 'A' (by decide) (by decide)
    (by decide)⟩

/-- C9 counterexample: an input of the form hyphen-digits does NOT always
yield a name token followed by a numeric literal: when the digit string
overflows i64 (here 2^63), lexing the number fails with
InvalidNumLitFormat, so no token list is produced at all. -/
theorem C9_hyphen_overflow_cex :
    tokenize ("-9223372036854775808") =
      .error ⟨.InvalidNumLitFormat, ⟨⟨1, 2⟩, ⟨1, 20⟩⟩⟩ := by
  have e1 : dispatch 1 '-' ['-', '9', '2', '2', '3', '3', '7', '2', '0',
      '3', '6', '8', '5', '4', '7', '7', '5', '8', '0', '8'] 0 =
      .ok (some ⟨.Name ("-"), ⟨⟨1, 1⟩, ⟨1, 1⟩⟩⟩,
        ['9', '2', '2', '3', '3', '7', '2', '0', '3', '6', '8', '5', '4',
          '7', '7', '5', '8', '0', '8'], 1) := by decide
  have e2 : dispatch 1 '9' ['9', '2', '2', '3', '3', '7', '2', '0', '3',
      '6', '8', '5', '4', '7', '7', '5', '8', '0', '8'] 1 =
      .error ⟨.InvalidNumLitFormat, ⟨⟨1, 2⟩, ⟨1, 20⟩⟩⟩ := by decide
  rw [show ("-9223372036854775808" : String) = String.mk ['-', '9', '2',
      '2', '3', '3', '7', '2', '0', '3', '6', '8', '5', '4', '7', '7',
      '5', '8', '0', '8'] from rfl,
    tokenize_single (by decide) (by decide),
    lineTokenize_cons_some (by decide) e1,
    lineTokenize_cons_err (by decide) e2]
  rfl

/-- C9 (amended): a hyphen immediately followed by an ASCII digit is
never absorbed into the numeric literal: whenever the digit string fits
in i64, "-digits" yields the one-character symbolic name "-" followed by
a separate non-negative integer literal (digit strings overflowing i64
fail with InvalidNumLitFormat instead); and in general no token of a
successful tokenization carries a negative numeric value. -/
theorem C9_hyphen_not_absorbed :
    (∀ (d : Char) (rest : List Char), d.isDigit = true →
      (∀ c ∈ rest, c.isDigit = true) →
      natOfDigits 10 (d :: rest) ≤ 2 ^ 63 - 1 →
      tokenize (String.mk ('-' :: d :: rest)) =
        .ok [⟨.Name ("-"), ⟨⟨1, 1⟩, ⟨1, 1⟩⟩⟩,
          ⟨.IntLit (natOfDigits 10 (d :: rest)),
            ⟨⟨1, 2⟩, ⟨1, 2 + rest.length⟩⟩⟩]) ∧
    (∀ (src : String) (toks : List Token), tokenize src = .ok toks →
      ∀ t ∈ toks, numOk t.kind = true) := by
  constructor
  · intro d rest hd hrest hv
    have hnl : '\n' ∉ '-' :: d :: rest := by
      intro hm
      rcases List.mem_cons.mp hm with e | hm
      · exact absurd e (by decide)
      rcases List.mem_cons.mp hm with e | hm
      · rw [← e] at hd
        exact absurd hd (by decide)
      · exact absurd (hrest _ hm) (by decide)
    have hdm : d ≠ '-' := fun e => absurd (e ▸ hd) (by decide)
    have e1 : dispatch 1 '-' ('-' :: d :: rest) 0 =
        .ok (some ⟨.Name ("-"), ⟨⟨1, 1⟩, ⟨1, 1⟩⟩⟩, d :: rest, 1) := by
      rw [dispatch_hyphen_sym (by
          intro e
          rw [List.tail_cons, List.head?_cons] at e
          exact hdm (Option.some.inj e)),
        lexSym_first_stop (symChar_digit hd)]
      rfl
    have hfil : (d :: rest).filter (fun c => c ≠ '_') = d :: rest :=
      List.filter_eq_self.mpr (fun c hc => by
        simp only [decide_eq_true_eq]
        rcases List.mem_cons.mp hc with rfl | hm
        · exact fun e => absurd (e ▸ hd) (by decide)
        · exact fun e => absurd (e ▸ hrest c hm) (by decide))
    have e2 : dispatch 1 d (d :: rest) 1 =
        .ok (some ⟨.IntLit (natOfDigits 10 (d :: rest)),
          ⟨⟨1, 2⟩, ⟨1, 2 + rest.length⟩⟩⟩, [], 2 + rest.length) := by
      rw [dispatch_digit hd]
      have h := @lexNumLit_dec_ok 1 d rest 1 hd
        (fun c hc => Or.inl (hrest c hc)) (by rw [hfil]; exact hv)
      rw [hfil] at h
      rw [h]
      rfl
    rw [tokenize_single hnl (List.cons_ne_nil _ _),
      lineTokenize_cons_some (by decide) e1,
      lineTokenize_cons_some (digit_not_ws hd) e2, lineTokenize_nil]
    rfl
  · exact fun src toks h t ht => chain_numOk (tokenize_chain h) t ht

theorem C9_hyphen_not_absorbed_witness :
    tokenize (String.mk ['-', '1']) =
      .ok [⟨.Name ("-"), ⟨⟨1, 1⟩, ⟨1, 1⟩⟩⟩,
        ⟨.IntLit (natOfDigits 10 ['1']), ⟨⟨1, 2⟩, ⟨1, 2⟩⟩⟩] :=
  C9_hyphen_not_absorbed.1 '1' [] (by decide)
    (fun c hc => absurd hc (List.not_mem_nil c)) (by decide)

end Lynx
